import Mathlib

/-!
# stats.cpp: streaming statistics and nearest-rank quantiles

A shallow embedding of `src/stats.cpp`, at two levels.

## The exact level

* A C++ `float` holding a finite value is a rational number `ℚ`, and the
  arithmetic on it is exact (no rounding, no overflow to infinity).  This is
  the level of the statements about exact arithmetic, and of the evaluations
  at small inputs on which binary32 arithmetic is exact.
* The result of a floating-point division may be non-finite (`0/0` is NaN,
  `x/0` is an infinity).  The two fields that are assigned from a division,
  `mean` and `variance`, therefore have type `Option ℚ`, where `none` stands
  for a non-finite float.
* `stdev` is `std::sqrt(variance)`; a square root is not a rational number, so
  the field holds a `Root`: the radicand of the square root, or a non-finite
  float.
* `count` is a C++ `int`; the model uses `Int` without wrap-around, which is
  the behaviour of the program on streams of fewer than `2^31` values.
* A `std::vector<float>` is a `List ℚ`, a `size_t` index is a natural number.
* Code that throws or has undefined behaviour returns `Except Fault _`.

## The binary32 level

* A `float` is an `Fval`: NaN, an infinity or a finite value, and an operation
  rounds its exact result to the nearest binary32 value, ties to even, with
  overflow to an infinity (`Fval.round32`).  The two zeros are one value.
* `quantiles.index_f32`, `quantiles_f32` and `compute_quartiles_f32` are
  `quantiles` and `compute_quartiles` with the index of line 17 computed in
  binary32 and converted to a 64-bit `size_t`.
* `statRecord32` is the part of the record that `min`, `max` and `mean` depend
  on (`min`, `max`, `total`, `count`, `mean`), over `Fval`.
-/

namespace Stats

/-- Abnormal ways in which the code can stop. -/
inductive Fault where
  /-- The exception `std::out_of_range`, thrown by `std::vector::at`. -/
  | out_of_range
  /-- Undefined behaviour: `operator[]` past the end of a vector, or the
  conversion of a negative floating-point value to `size_t`. -/
  | undefined
  /-- The exception `std::invalid_argument`, thrown by `std::stof`. -/
  | invalid_argument
  deriving DecidableEq, Repr

/-- The statement `size_t index = std::ceil(proba * N);` of `quantiles`
(line 17): the ceiling of the product, converted to an unsigned index.  The
conversion of a negative value is undefined. -/
def quantiles.index (proba : ℚ) (N : Nat) : Except Fault Nat :=
  let c : Int := ⌈proba * (N : ℚ)⌉
  if c < 0 then Except.error Fault.undefined else Except.ok c.toNat

/-- The call `data.at(index)`: bounds-checked element access. -/
def quantiles.at (data : List ℚ) (index : Nat) : Except Fault ℚ :=
  match data[index]? with
  | some v => Except.ok v
  | none => Except.error Fault.out_of_range

/-- The `for (float proba : probabilities)` loop of `quantiles` (lines 16-19);
`acc` is the local vector `quantiles` that the loop pushes to. -/
def quantiles.loop (data : List ℚ) (N : Nat) : List ℚ → List ℚ → Except Fault (List ℚ)
  | [], acc => Except.ok acc
  | proba :: rest, acc =>
    match quantiles.index proba N with
    | Except.error e => Except.error e
    | Except.ok index =>
      match quantiles.at data index with
      | Except.error e => Except.error e
      | Except.ok v => quantiles.loop data N rest (acc ++ [v])

/-- The function `quantiles` (lines 7-22). -/
def quantiles (data probabilities : List ℚ) : Except Fault (List ℚ) :=
  match data with
  | [] => Except.ok []
  | [d] => Except.ok [d]
  | _ => quantiles.loop data data.length probabilities []

/-- The value of a `std::sqrt`: the non-negative square root of the rational
`radicand`, or a float that is not finite (NaN or an infinity). -/
inductive Root where
  | nonfinite
  | sqrt (radicand : ℚ)
  deriving DecidableEq

/-- The struct `statRecord` (lines 24-30). -/
structure statRecord where
  mean : Option ℚ
  variance : Option ℚ
  stdev : Root
  min : ℚ
  max : ℚ
  total : ℚ
  total_squared : ℚ
  count : Int
  median : ℚ
  q1 : ℚ
  q3 : ℚ
  print_quartiles : Bool
  elements : List ℚ
  deriving DecidableEq

namespace statRecord

/-- The constructor `statRecord(bool qs)` (lines 46-58). -/
def ctor_qs (qs : Bool) : statRecord where
  mean := some 0
  variance := some 0
  stdev := Root.sqrt 0
  min := -1
  max := 0
  total := 0
  total_squared := 0
  count := 0
  median := 0
  q1 := 0
  q3 := 0
  print_quartiles := qs
  elements := []

/-- The default constructor `statRecord()` (lines 32-44). -/
def ctor : statRecord where
  mean := some 0
  variance := some 0
  stdev := Root.sqrt 0
  min := -1
  max := 0
  total := 0
  total_squared := 0
  count := 0
  median := 0
  q1 := 0
  q3 := 0
  print_quartiles := false
  elements := []

/-- The method `process_val` (lines 76-87).  Each statement of the body
assigns one field, from `val` and the old value of that same field. -/
def process_val (r : statRecord) (val : ℚ) : statRecord :=
  { r with
    max := if val > r.max then val else r.max
    min := if val < r.min ∨ r.min < 0 then val else r.min
    elements := if r.print_quartiles then r.elements ++ [val] else r.elements
    total := r.total + val
    total_squared := r.total_squared + val ^ 2
    count := r.count + 1 }

/-- Floating-point division of a float by an `int`: a division by zero has a
non-finite result. -/
def fdiv (x : ℚ) (n : Int) : Option ℚ :=
  if n = 0 then none else some (x / (n : ℚ))

/-- The method `compute_mean` (line 89). -/
def compute_mean (r : statRecord) : statRecord :=
  { r with mean := fdiv r.total r.count }

/-- The expression `(total_squared / count) - std::pow(mean, 2)` of line 92.
An operand that is not finite makes the difference not finite. -/
def variance_value (r : statRecord) : Option ℚ :=
  match fdiv r.total_squared r.count, r.mean with
  | some e, some m => some (e - m ^ 2)
  | _, _ => none

/-- The call `std::sqrt(variance)` of line 93: NaN for a negative argument,
not finite for an argument that is not finite. -/
def sqrt_value : Option ℚ → Root
  | some v => if v < 0 then Root.nonfinite else Root.sqrt v
  | none => Root.nonfinite

/-- The method `compute_variance` (lines 91-94). -/
def compute_variance (r : statRecord) : statRecord :=
  { r with
    variance := variance_value r
    stdev := sqrt_value (variance_value r) }

/-- The method `compute_quartiles` (lines 96-103).  `std::sort` sorts in
ascending order; reading `quartiles[i]` past the end is undefined. -/
def compute_quartiles (r : statRecord) : Except Fault statRecord :=
  let r := { r with elements := r.elements.insertionSort (· ≤ ·) }
  let vals : List ℚ := [1 / 4, 1 / 2, 3 / 4]
  match quantiles r.elements vals with
  | Except.error e => Except.error e
  | Except.ok quartiles =>
    match quartiles[0]?, quartiles[1]?, quartiles[2]? with
    | some a, some b, some c => Except.ok { r with q1 := a, median := b, q3 := c }
    | _, _, _ => Except.error Fault.undefined

end statRecord

/-- The `while (std::getline(std::cin, line))` loop of `main` (lines 200-203)
on a record: every value of the stream goes through `process_val`, in the
order of arrival. -/
def ingest (r : statRecord) (vals : List ℚ) : statRecord :=
  vals.foldl statRecord.process_val r

/-- The calls `record.compute_mean(); record.compute_variance();` of `main`
(lines 205-206). -/
def finalize (r : statRecord) : statRecord :=
  r.compute_mean.compute_variance

/-- The command-line switches that `main` sets (lines 168-170). -/
structure Options where
  compute_quartiles : Bool
  print_json : Bool
  skip_header : Bool
  deriving DecidableEq

/-- What a run of `main` amounts to: a return with an exit status, together
with the record that was printed (if one was) and whether it was printed as
JSON; or a stop by an uncaught exception or undefined behaviour. -/
inductive Outcome where
  | exit (status : Nat) (printed : Option (Bool × statRecord))
  | fault (e : Fault)
  deriving DecidableEq

/-- The `for (int i = 1; i < argc; ++i)` loop of `main` (lines 177-193) over
the arguments after the program name: either the switches, or the exit status
of an early `return`. -/
def parse_args : List String → Options → Except Nat Options
  | [], o => Except.ok o
  | opt :: rest, o =>
    if opt = "-h" ∨ opt = "--help" then Except.error 0
    else if opt = "-q" ∨ opt = "--quartiles" then
      parse_args rest { o with compute_quartiles := true }
    else if opt = "-j" ∨ opt = "--json" then
      parse_args rest { o with print_json := true }
    else if opt = "-s" ∨ opt = "--skip-header" then
      parse_args rest { o with skip_header := true }
    else Except.error 1

/-- The reading loop of `main` (lines 200-203).  A line of the input is given
by what `std::stof` makes of it: `some v` when it converts to the value `v`,
`none` when `std::stof` throws. -/
def read_loop (r : statRecord) : List (Option ℚ) → Except Fault statRecord
  | [] => Except.ok r
  | none :: _ => Except.error Fault.invalid_argument
  | some val :: rest => read_loop (r.process_val val) rest

/-- The function `main` (lines 166-213): `args` is `argv` without the program
name, `lines` is the standard input. -/
def main (args : List String) (lines : List (Option ℚ)) : Outcome :=
  if args.length + 1 > 3 then Outcome.exit 1 none
  else
    match parse_args args ⟨false, false, false⟩ with
    | Except.error status => Outcome.exit status none
    | Except.ok o =>
      let record := statRecord.ctor_qs o.compute_quartiles
      let lines := if o.skip_header then lines.drop 1 else lines
      match read_loop record lines with
      | Except.error e => Outcome.fault e
      | Except.ok record =>
        let record := record.compute_mean
        let record := record.compute_variance
        if o.compute_quartiles then
          match record.compute_quartiles with
          | Except.error e => Outcome.fault e
          | Except.ok record => Outcome.exit 0 (some (o.print_json, record))
        else Outcome.exit 0 (some (o.print_json, record))

/-- The test of line 179 of `main`: the argument is a help switch. -/
def help_flag (opt : String) : Prop :=
  opt = "-h" ∨ opt = "--help"

/-- The tests of lines 182, 184 and 186 of `main`: the argument is one of the
three switches that `main` records. -/
def switch_flag (opt : String) : Prop :=
  (opt = "-q" ∨ opt = "--quartiles") ∨ (opt = "-j" ∨ opt = "--json") ∨
    (opt = "-s" ∨ opt = "--skip-header")

instance (opt : String) : Decidable (help_flag opt) := by
  unfold help_flag; infer_instance

instance (opt : String) : Decidable (switch_flag opt) := by
  unfold switch_flag; infer_instance

/-! ### The binary32 level -/

/-- A binary32 (`float`) value.  The two zeros are one value, `fin 0`. -/
inductive Fval where
  | nan
  | ninf
  | fin (q : ℚ)
  | pinf
  deriving DecidableEq

namespace Fval

/-- The comparison `a < b` of two floats; it is false when one of them is NaN. -/
def lt : Fval → Fval → Bool
  | fin a, fin b => decide (a < b)
  | ninf, fin _ => true
  | ninf, pinf => true
  | fin _, pinf => true
  | _, _ => false

/-- The comparison `a <= b` of two floats; it is false when one of them is NaN. -/
def le : Fval → Fval → Bool
  | fin a, fin b => decide (a ≤ b)
  | ninf, ninf => true
  | ninf, fin _ => true
  | ninf, pinf => true
  | fin _, pinf => true
  | pinf, pinf => true
  | _, _ => false

/-- Rounding of a rational to the nearest integer, a tie going to the even one. -/
def rne (q : ℚ) : Int :=
  if q - (⌊q⌋ : ℚ) < 1 / 2 then ⌊q⌋
  else if 1 / 2 < q - (⌊q⌋ : ℚ) then ⌊q⌋ + 1
  else if ⌊q⌋ % 2 = 0 then ⌊q⌋ else ⌊q⌋ + 1

/-- The exponent of the unit in the last place of binary32 at the magnitude of
`x`: 24 significant bits, and `2^-149` below the smallest normal number. -/
def ulp_exp (x : ℚ) : Int :=
  max (Int.log 2 |x|) (-126) - 23

/-- The binary32 value of an exact result `x`: the nearest multiple of the unit
in the last place, ties to even, and an infinity from `2^128` on. -/
def round32 (x : ℚ) : Fval :=
  let y : ℚ := (rne (x / 2 ^ ulp_exp x) : ℚ) * 2 ^ ulp_exp x
  if 2 ^ 128 ≤ y then pinf else if y ≤ -2 ^ 128 then ninf else fin y

/-- Addition of two floats. -/
def add : Fval → Fval → Fval
  | nan, _ => nan
  | _, nan => nan
  | pinf, ninf => nan
  | ninf, pinf => nan
  | pinf, _ => pinf
  | _, pinf => pinf
  | ninf, _ => ninf
  | _, ninf => ninf
  | fin a, fin b => round32 (a + b)

/-- Multiplication of two floats. -/
def mul : Fval → Fval → Fval
  | nan, _ => nan
  | _, nan => nan
  | fin a, fin b => round32 (a * b)
  | fin a, pinf => if a = 0 then nan else if 0 < a then pinf else ninf
  | fin a, ninf => if a = 0 then nan else if 0 < a then ninf else pinf
  | pinf, fin b => if b = 0 then nan else if 0 < b then pinf else ninf
  | ninf, fin b => if b = 0 then nan else if 0 < b then ninf else pinf
  | pinf, pinf => pinf
  | ninf, ninf => pinf
  | pinf, ninf => ninf
  | ninf, pinf => ninf

/-- Division of a float by a float whose zero is `+0.0`, as is the zero of an
`int` converted to `float`. -/
def div : Fval → Fval → Fval
  | nan, _ => nan
  | _, nan => nan
  | fin a, fin b =>
    if b = 0 then (if a = 0 then nan else if 0 < a then pinf else ninf)
    else round32 (a / b)
  | fin _, pinf => fin 0
  | fin _, ninf => fin 0
  | pinf, fin b => if 0 ≤ b then pinf else ninf
  | ninf, fin b => if 0 ≤ b then ninf else pinf
  | pinf, pinf => nan
  | pinf, ninf => nan
  | ninf, pinf => nan
  | ninf, ninf => nan

/-- The function `std::ceil` on a float. -/
def ceil : Fval → Fval
  | fin q => fin (⌈q⌉ : ℚ)
  | v => v

/-- The conversion of a `size_t` to `float`. -/
def of_nat (N : Nat) : Fval :=
  round32 (N : ℚ)

/-- The conversion of an `int` to `float`. -/
def of_int (n : Int) : Fval :=
  round32 (n : ℚ)

/-- The conversion of a float to a 64-bit `size_t`: the value is truncated
towards zero, and the conversion is undefined when the truncated value is not
in `0 .. 2^64 - 1`, as it is for NaN and the infinities. -/
def to_size_t : Fval → Except Fault Nat
  | fin c =>
    if -1 < c ∧ c < 2 ^ 64 then Except.ok (if 0 ≤ c then ⌊c⌋ else ⌈c⌉).toNat
    else Except.error Fault.undefined
  | _ => Except.error Fault.undefined

end Fval

/-- The statement `size_t index = std::ceil(proba * N);` of `quantiles`
(line 17) in binary32: `N` is converted to `float`, the product is rounded,
and its ceiling is converted to `size_t`. -/
def quantiles.index_f32 (proba : ℚ) (N : Nat) : Except Fault Nat :=
  Fval.to_size_t (Fval.ceil (Fval.mul (Fval.fin proba) (Fval.of_nat N)))

/-- The loop of `quantiles` (lines 16-19) with the binary32 index. -/
def quantiles.loop_f32 (data : List ℚ) (N : Nat) : List ℚ → List ℚ → Except Fault (List ℚ)
  | [], acc => Except.ok acc
  | proba :: rest, acc =>
    match quantiles.index_f32 proba N with
    | Except.error e => Except.error e
    | Except.ok index =>
      match quantiles.at data index with
      | Except.error e => Except.error e
      | Except.ok v => quantiles.loop_f32 data N rest (acc ++ [v])

/-- The function `quantiles` (lines 7-22) with the binary32 index. -/
def quantiles_f32 (data probabilities : List ℚ) : Except Fault (List ℚ) :=
  match data with
  | [] => Except.ok []
  | [d] => Except.ok [d]
  | _ => quantiles.loop_f32 data data.length probabilities []

/-- The method `compute_quartiles` (lines 96-103) with the binary32 index. -/
def statRecord.compute_quartiles_f32 (r : statRecord) : Except Fault statRecord :=
  let r := { r with elements := r.elements.insertionSort (· ≤ ·) }
  let vals : List ℚ := [1 / 4, 1 / 2, 3 / 4]
  match quantiles_f32 r.elements vals with
  | Except.error e => Except.error e
  | Except.ok quartiles =>
    match quartiles[0]?, quartiles[1]?, quartiles[2]? with
    | some a, some b, some c => Except.ok { r with q1 := a, median := b, q3 := c }
    | _, _, _ => Except.error Fault.undefined

/-- The fields `mean`, `min`, `max`, `total` and `count` of `statRecord`, as
binary32 values. -/
structure statRecord32 where
  mean : Fval
  min : Fval
  max : Fval
  total : Fval
  count : Int
  deriving DecidableEq

namespace statRecord32

/-- The initial values that both constructors give to these fields
(lines 33-40 and 47-54). -/
def ctor : statRecord32 where
  mean := Fval.fin 0
  min := Fval.fin (-1)
  max := Fval.fin 0
  total := Fval.fin 0
  count := 0

/-- The statements of `process_val` that assign `max`, `min`, `total` and
`count` (lines 77-82, 84 and 86), on floats. -/
def process_val (r : statRecord32) (val : Fval) : statRecord32 :=
  { r with
    max := if Fval.lt r.max val then val else r.max
    min := if Fval.lt val r.min || Fval.lt r.min (Fval.fin 0) then val else r.min
    total := Fval.add r.total val
    count := r.count + 1 }

/-- The method `compute_mean` (line 89), on floats. -/
def compute_mean (r : statRecord32) : statRecord32 :=
  { r with mean := Fval.div r.total (Fval.of_int r.count) }

end statRecord32

/-- The reading loop of `main` (lines 200-203) on the binary32 fields. -/
def ingest32 (r : statRecord32) (vals : List Fval) : statRecord32 :=
  vals.foldl statRecord32.process_val r

namespace statRecord

theorem ctor_eq_ctor_qs : ctor = ctor_qs false := rfl

@[simp]
theorem process_val_count (r : statRecord) (val : ℚ) :
    (r.process_val val).count = r.count + 1 := rfl

@[simp]
theorem process_val_total (r : statRecord) (val : ℚ) :
    (r.process_val val).total = r.total + val := rfl

@[simp]
theorem process_val_total_squared (r : statRecord) (val : ℚ) :
    (r.process_val val).total_squared = r.total_squared + val ^ 2 := rfl

@[simp]
theorem process_val_max (r : statRecord) (val : ℚ) :
    (r.process_val val).max = if val > r.max then val else r.max := rfl

@[simp]
theorem process_val_min (r : statRecord) (val : ℚ) :
    (r.process_val val).min = if val < r.min ∨ r.min < 0 then val else r.min := rfl

@[simp]
theorem process_val_print_quartiles (r : statRecord) (val : ℚ) :
    (r.process_val val).print_quartiles = r.print_quartiles := rfl

@[simp]
theorem process_val_elements (r : statRecord) (val : ℚ) :
    (r.process_val val).elements =
      if r.print_quartiles then r.elements ++ [val] else r.elements := rfl

end statRecord

@[simp]
theorem ingest_nil (r : statRecord) : ingest r [] = r := rfl

@[simp]
theorem ingest_cons (r : statRecord) (x : ℚ) (xs : List ℚ) :
    ingest r (x :: xs) = ingest (r.process_val x) xs := rfl

theorem ingest_append (r : statRecord) (xs ys : List ℚ) :
    ingest r (xs ++ ys) = ingest (ingest r xs) ys := by
  simp [ingest, List.foldl_append]

theorem ingest_count (r : statRecord) (xs : List ℚ) :
    (ingest r xs).count = r.count + (xs.length : Int) := by
  induction xs generalizing r with
  | nil => simp
  | cons x xs ih => simp [ih]; ring

theorem ingest_total (r : statRecord) (xs : List ℚ) :
    (ingest r xs).total = r.total + xs.sum := by
  induction xs generalizing r with
  | nil => simp
  | cons x xs ih => simp [ih]; ring

theorem ingest_total_squared (r : statRecord) (xs : List ℚ) :
    (ingest r xs).total_squared = r.total_squared + (xs.map (fun x => x ^ 2)).sum := by
  induction xs generalizing r with
  | nil => simp
  | cons x xs ih => simp [ih]; ring

theorem finalize_mean (r : statRecord) :
    (finalize r).mean = statRecord.fdiv r.total r.count := rfl

theorem finalize_variance (r : statRecord) :
    (finalize r).variance =
      match statRecord.fdiv r.total_squared r.count, statRecord.fdiv r.total r.count with
      | some e, some m => some (e - m ^ 2)
      | _, _ => none := rfl

theorem finalize_stdev (r : statRecord) :
    (finalize r).stdev = statRecord.sqrt_value (finalize r).variance := rfl

theorem finalize_min (r : statRecord) : (finalize r).min = r.min := rfl

theorem finalize_max (r : statRecord) : (finalize r).max = r.max := rfl

theorem fdiv_zero (x : ℚ) : statRecord.fdiv x 0 = none := rfl

theorem fdiv_length (x : ℚ) (xs : List ℚ) (h : xs ≠ []) :
    statRecord.fdiv x (xs.length : Int) = some (x / (xs.length : ℚ)) := by
  have hl : (xs.length : Int) ≠ 0 := by
    simpa using h
  simp [statRecord.fdiv, hl]

/-- The finalized mean and variance of a fresh record after a non-empty
stream, in terms of the sums of the stream. -/
theorem finalize_ingest_fresh (qs : Bool) (xs : List ℚ) (h : xs ≠ []) :
    (finalize (ingest (statRecord.ctor_qs qs) xs)).mean =
      some (xs.sum / (xs.length : ℚ)) ∧
    (finalize (ingest (statRecord.ctor_qs qs) xs)).variance =
      some ((xs.map (fun x => x ^ 2)).sum / (xs.length : ℚ) - (xs.sum / (xs.length : ℚ)) ^ 2) := by
  have hc : (ingest (statRecord.ctor_qs qs) xs).count = (xs.length : Int) := by
    simp [ingest_count, statRecord.ctor_qs]
  have ht : (ingest (statRecord.ctor_qs qs) xs).total = xs.sum := by
    simp [ingest_total, statRecord.ctor_qs]
  have hq : (ingest (statRecord.ctor_qs qs) xs).total_squared = (xs.map (fun x => x ^ 2)).sum := by
    simp [ingest_total_squared, statRecord.ctor_qs]
  rw [finalize_mean, finalize_variance, hc, ht, hq, fdiv_length _ _ h, fdiv_length _ _ h]
  exact ⟨rfl, rfl⟩

/-- The sum of the squared deviations from any `m`, in terms of the two sums
that the record keeps. -/
theorem sum_sq_dev (xs : List ℚ) (m : ℚ) :
    (xs.map (fun x => (x - m) ^ 2)).sum =
      (xs.map (fun x => x ^ 2)).sum - 2 * m * xs.sum + (xs.length : ℚ) * m ^ 2 := by
  induction xs with
  | nil => simp
  | cons x xs ih => simp [ih]; ring

theorem sum_sq_dev_nonneg (xs : List ℚ) (m : ℚ) :
    0 ≤ (xs.map (fun x => (x - m) ^ 2)).sum := by
  apply List.sum_nonneg
  intro y hy
  obtain ⟨x, -, rfl⟩ := List.mem_map.1 hy
  exact sq_nonneg _

theorem quantiles.index_of_ceil {p : ℚ} {N k : Nat} (h : ⌈p * (N : ℚ)⌉ = (k : Int)) :
    quantiles.index p N = Except.ok k := by
  simp [quantiles.index, h]

/-- When every index is in range the loop of `quantiles` pushes one element
of `data` per probability. -/
theorem quantiles.loop_ok (data : List ℚ) (N : Nat) (ps acc : List ℚ)
    (h : ∀ p ∈ ps, 0 ≤ ⌈p * (N : ℚ)⌉ ∧ ⌈p * (N : ℚ)⌉.toNat < data.length) :
    quantiles.loop data N ps acc =
      Except.ok (acc ++ ps.map (fun p => data.getD ⌈p * (N : ℚ)⌉.toNat 0)) := by
  induction ps generalizing acc with
  | nil => simp [quantiles.loop]
  | cons p ps ih =>
    obtain ⟨h0, h1⟩ := h p (List.mem_cons_self _ _)
    have hi : quantiles.index p N = Except.ok ⌈p * (N : ℚ)⌉.toNat := by
      simp [quantiles.index, not_lt.2 h0]
    have ha : quantiles.at data ⌈p * (N : ℚ)⌉.toNat =
        Except.ok (data.getD ⌈p * (N : ℚ)⌉.toNat 0) := by
      simp [quantiles.at, List.getElem?_eq_getElem h1, List.getD_eq_getElem?_getD]
    rw [quantiles.loop, hi]
    simp only [ha]
    rw [ih _ (fun q hq => h q (List.mem_cons_of_mem _ hq))]
    simp

/-- The loop of `quantiles` fails as soon as one of the probabilities has an
index past the end of `data`. -/
theorem quantiles.loop_error_of_mem (data : List ℚ) (N : Nat) (ps acc : List ℚ) (p : ℚ)
    (hp : p ∈ ps) (hbad : ∀ k, quantiles.index p N = Except.ok k → data.length ≤ k) :
    ∃ e, quantiles.loop data N ps acc = Except.error e := by
  induction ps generalizing acc with
  | nil => exact absurd hp (List.not_mem_nil _)
  | cons q rest ih =>
    cases hi : quantiles.index q N with
    | error e => exact ⟨e, by rw [quantiles.loop, hi]⟩
    | ok k =>
      cases ha : quantiles.at data k with
      | error e => exact ⟨e, by rw [quantiles.loop, hi]; simp only [ha]⟩
      | ok v =>
        rcases List.mem_cons.1 hp with rfl | hmem
        · have hk := hbad k hi
          simp [quantiles.at, List.getElem?_eq_none hk] at ha
        · rw [quantiles.loop, hi]
          simp only [ha]
          exact ih _ hmem

/-- For two or more elements `quantiles` is its loop. -/
theorem quantiles_eq_loop (data ps : List ℚ) (hN : 2 ≤ data.length) :
    quantiles data ps = quantiles.loop data data.length ps [] := by
  match data, hN with
  | _ :: _ :: _, _ => rfl

/-- The comparison of `process_val` keeps the larger of the two values. -/
theorem ingest_max (r : statRecord) (xs : List ℚ) :
    (ingest r xs).max = xs.foldl max r.max := by
  induction xs generalizing r with
  | nil => rfl
  | cons x xs ih =>
    rw [ingest_cons, ih, List.foldl_cons, statRecord.process_val_max]
    congr 1
    rw [max_def]
    by_cases h : x > r.max
    · rw [if_pos h, if_pos (le_of_lt h)]
    · rw [if_neg h]
      rcases eq_or_lt_of_le (not_lt.1 h) with he | hl
      · rw [if_pos (le_of_eq he.symm), he]
      · rw [if_neg (not_le.2 hl)]

theorem ingest_max_ge (r : statRecord) (xs : List ℚ) :
    r.max ≤ (ingest r xs).max ∧ ∀ x ∈ xs, x ≤ (ingest r xs).max := by
  induction xs generalizing r with
  | nil => exact ⟨le_refl _, fun x hx => absurd hx (List.not_mem_nil _)⟩
  | cons y ys ih =>
    obtain ⟨h1, h2⟩ := ih (r.process_val y)
    have hy : y ≤ (r.process_val y).max ∧ r.max ≤ (r.process_val y).max := by
      rw [statRecord.process_val_max]
      split_ifs with h
      · exact ⟨le_refl _, le_of_lt h⟩
      · exact ⟨not_lt.1 h, le_refl _⟩
    refine ⟨le_trans hy.2 h1, fun x hx => ?_⟩
    rcases List.mem_cons.1 hx with rfl | hm
    · exact le_trans hy.1 h1
    · exact h2 x hm

theorem ingest_max_mem (r : statRecord) (xs : List ℚ) :
    (ingest r xs).max = r.max ∨ (ingest r xs).max ∈ xs := by
  induction xs generalizing r with
  | nil => exact Or.inl rfl
  | cons y ys ih =>
    rcases ih (r.process_val y) with h | h
    · rw [ingest_cons, h, statRecord.process_val_max]
      split_ifs
      · exact Or.inr (List.mem_cons_self _ _)
      · exact Or.inl rfl
    · exact Or.inr (List.mem_cons_of_mem _ h)

/-- Every step of `process_val` keeps `min <= max`. -/
theorem process_val_min_le_max (r : statRecord) (val : ℚ) (h : r.min ≤ r.max) :
    (r.process_val val).min ≤ (r.process_val val).max := by
  rw [statRecord.process_val_min, statRecord.process_val_max]
  split_ifs with h1 h2 h2
  · exact le_refl _
  · exact not_lt.1 h2
  · exact le_trans h (le_of_lt h2)
  · exact h

theorem ingest_min_le_max (r : statRecord) (xs : List ℚ) (h : r.min ≤ r.max) :
    (ingest r xs).min ≤ (ingest r xs).max := by
  induction xs generalizing r with
  | nil => exact h
  | cons y ys ih => exact ih _ (process_val_min_le_max r y h)

/-- The fields `count`, `total`, `total_squared` and `max`, and with them the
finalized `mean` and `variance`, do not depend on the order of the stream. -/
theorem finalize_ingest_perm (r : statRecord) (xs ys : List ℚ) (h : xs.Perm ys) :
    (finalize (ingest r xs)).count = (finalize (ingest r ys)).count ∧
    (finalize (ingest r xs)).max = (finalize (ingest r ys)).max ∧
    (finalize (ingest r xs)).mean = (finalize (ingest r ys)).mean ∧
    (finalize (ingest r xs)).variance = (finalize (ingest r ys)).variance := by
  have hc : (ingest r xs).count = (ingest r ys).count := by
    rw [ingest_count, ingest_count, h.length_eq]
  have ht : (ingest r xs).total = (ingest r ys).total := by
    rw [ingest_total, ingest_total, h.sum_eq]
  have hq : (ingest r xs).total_squared = (ingest r ys).total_squared := by
    rw [ingest_total_squared, ingest_total_squared, (h.map _).sum_eq]
  have hm : (ingest r xs).max = (ingest r ys).max := by
    rw [ingest_max, ingest_max]
    exact h.foldl_eq' (fun x _ y _ z => by rw [max_assoc, max_comm x y, ← max_assoc]) _
  refine ⟨hc, hm, ?_, ?_⟩
  · rw [finalize_mean, finalize_mean, hc, ht]
  · rw [finalize_variance, finalize_variance, hc, ht, hq]

theorem ingest_print_quartiles (r : statRecord) (xs : List ℚ) :
    (ingest r xs).print_quartiles = r.print_quartiles := by
  induction xs generalizing r with
  | nil => rfl
  | cons x xs ih => rw [ingest_cons, ih, statRecord.process_val_print_quartiles]

/-- The sample buffer after a stream: the stream is appended to it when the
record tracks quartiles, and it is left alone otherwise. -/
theorem ingest_elements (r : statRecord) (xs : List ℚ) :
    (ingest r xs).elements = if r.print_quartiles then r.elements ++ xs else r.elements := by
  induction xs generalizing r with
  | nil => simp
  | cons x xs ih =>
    rw [ingest_cons, ih, statRecord.process_val_print_quartiles, statRecord.process_val_elements]
    cases r.print_quartiles <;> simp

/-- The field `min` after a stream depends on the record only through `min`. -/
theorem ingest_min_congr (r s : statRecord) (xs : List ℚ) (h : r.min = s.min) :
    (ingest r xs).min = (ingest s xs).min := by
  induction xs generalizing r s with
  | nil => exact h
  | cons x xs ih =>
    rw [ingest_cons, ingest_cons]
    apply ih
    rw [statRecord.process_val_min, statRecord.process_val_min, h]

/-- A recorded switch is not a help switch. -/
theorem not_help_of_switch (opt : String) (h : switch_flag opt) : ¬ help_flag opt := by
  rcases h with (rfl | rfl) | (rfl | rfl) | (rfl | rfl) <;> decide

/-- A recorded switch lets the loop of `main` go on to the next argument. -/
theorem parse_args_switch (opt : String) (rest : List String) (o : Options)
    (h : switch_flag opt) : ∃ o2, parse_args (opt :: rest) o = parse_args rest o2 := by
  rcases h with (rfl | rfl) | (rfl | rfl) | (rfl | rfl)
  · exact ⟨{ o with compute_quartiles := true }, by simp [parse_args]⟩
  · exact ⟨{ o with compute_quartiles := true }, by simp [parse_args]⟩
  · exact ⟨{ o with print_json := true }, by simp [parse_args]⟩
  · exact ⟨{ o with print_json := true }, by simp [parse_args]⟩
  · exact ⟨{ o with skip_header := true }, by simp [parse_args]⟩
  · exact ⟨{ o with skip_header := true }, by simp [parse_args]⟩

/-- The loop of `main` returns 1 at the first argument that is no switch, when
no help switch comes before it. -/
theorem parse_args_unknown (pre post : List String) (u : String) (o : Options)
    (hpre : ∀ a ∈ pre, switch_flag a) (hu1 : ¬ help_flag u) (hu2 : ¬ switch_flag u) :
    parse_args (pre ++ u :: post) o = Except.error 1 := by
  induction pre generalizing o with
  | nil =>
    simp only [help_flag, switch_flag, not_or] at hu1 hu2
    simp [parse_args, hu1.1, hu1.2, hu2.1.1, hu2.1.2, hu2.2.1.1, hu2.2.1.2, hu2.2.2.1, hu2.2.2.2]
  | cons a pre ih =>
    obtain ⟨o2, ho2⟩ := parse_args_switch a (pre ++ u :: post) o (hpre a (List.mem_cons_self _ _))
    rw [List.cons_append, ho2]
    exact ih o2 (fun b hb => hpre b (List.mem_cons_of_mem _ hb))

/-- The loop of `main` returns 0 at the first help switch, when only recorded
switches come before it. -/
theorem parse_args_help (pre post : List String) (u : String) (o : Options)
    (hpre : ∀ a ∈ pre, switch_flag a) (hu : help_flag u) :
    parse_args (pre ++ u :: post) o = Except.error 0 := by
  induction pre generalizing o with
  | nil =>
    have hu2 : u = "-h" ∨ u = "--help" := hu
    simp [parse_args, hu2]
  | cons a pre ih =>
    obtain ⟨o2, ho2⟩ := parse_args_switch a (pre ++ u :: post) o (hpre a (List.mem_cons_self _ _))
    rw [List.cons_append, ho2]
    exact ih o2 (fun b hb => hpre b (List.mem_cons_of_mem _ hb))

/-- For four or more elements the three quartile indices are in range. -/
theorem quartile_index_bounds (N : Nat) (h : 4 ≤ N) :
    ∀ p ∈ ([1 / 4, 1 / 2, 3 / 4] : List ℚ),
      0 ≤ ⌈p * (N : ℚ)⌉ ∧ ⌈p * (N : ℚ)⌉.toNat < N := by
  have hN : (4 : ℚ) ≤ (N : ℚ) := by exact_mod_cast h
  have key : ∀ p : ℚ, 0 ≤ p → p ≤ 3 / 4 → 0 ≤ ⌈p * (N : ℚ)⌉ ∧ ⌈p * (N : ℚ)⌉.toNat < N := by
    intro p hp0 hp1
    have h0 : 0 ≤ ⌈p * (N : ℚ)⌉ := Int.ceil_nonneg (mul_nonneg hp0 (by linarith))
    have h1 : ⌈p * (N : ℚ)⌉ ≤ (N : Int) - 1 := by
      rw [Int.ceil_le]
      push_cast
      nlinarith
    exact ⟨h0, by omega⟩
  intro p hp
  simp only [List.mem_cons, List.mem_singleton, List.not_mem_nil, or_false] at hp
  rcases hp with rfl | rfl | rfl
  · exact key _ (by norm_num) (by norm_num)
  · exact key _ (by norm_num) (by norm_num)
  · exact key _ (by norm_num) (by norm_num)

/-- With four or more elements in the sample buffer `compute_quartiles`
returns, with the buffer sorted and the three quartiles read from it. -/
theorem compute_quartiles_ok (r : statRecord) (h : 4 ≤ r.elements.length) :
    r.compute_quartiles = Except.ok
      { r with
        elements := r.elements.insertionSort (· ≤ ·)
        q1 := (r.elements.insertionSort (· ≤ ·)).getD
          ⌈(1 / 4 : ℚ) * (r.elements.length : ℚ)⌉.toNat 0
        median := (r.elements.insertionSort (· ≤ ·)).getD
          ⌈(1 / 2 : ℚ) * (r.elements.length : ℚ)⌉.toNat 0
        q3 := (r.elements.insertionSort (· ≤ ·)).getD
          ⌈(3 / 4 : ℚ) * (r.elements.length : ℚ)⌉.toNat 0 } := by
  have hl : (r.elements.insertionSort (· ≤ ·)).length = r.elements.length :=
    List.length_insertionSort _ _
  have hb := quartile_index_bounds r.elements.length h
  have hq : quantiles (r.elements.insertionSort (· ≤ ·)) [1 / 4, 1 / 2, 3 / 4] =
      Except.ok [(r.elements.insertionSort (· ≤ ·)).getD
          ⌈(1 / 4 : ℚ) * (r.elements.length : ℚ)⌉.toNat 0,
        (r.elements.insertionSort (· ≤ ·)).getD
          ⌈(1 / 2 : ℚ) * (r.elements.length : ℚ)⌉.toNat 0,
        (r.elements.insertionSort (· ≤ ·)).getD
          ⌈(3 / 4 : ℚ) * (r.elements.length : ℚ)⌉.toNat 0] := by
    rw [quantiles_eq_loop _ _ (by omega), hl,
      quantiles.loop_ok _ _ _ _ (by rw [hl]; exact hb)]
    rfl
  simp only [statRecord.compute_quartiles, hq]
  rfl

/-- With an empty sample buffer `compute_quartiles` reads `quartiles[0]` of an
empty result. -/
theorem compute_quartiles_zero (r : statRecord) (h : r.elements.length = 0) :
    quantiles (r.elements.insertionSort (· ≤ ·)) [1 / 4, 1 / 2, 3 / 4] = Except.ok [] ∧
    r.compute_quartiles = Except.error Fault.undefined := by
  have he : r.elements = [] := List.length_eq_zero.1 h
  have hq : quantiles (r.elements.insertionSort (· ≤ ·)) [1 / 4, 1 / 2, 3 / 4] =
      Except.ok [] := by
    rw [he]; rfl
  refine ⟨hq, ?_⟩
  simp only [statRecord.compute_quartiles, hq]
  rfl

/-- With one element in the sample buffer `compute_quartiles` reads
`quartiles[1]` of a result with one entry. -/
theorem compute_quartiles_one (r : statRecord) (h : r.elements.length = 1) :
    (∃ d, quantiles (r.elements.insertionSort (· ≤ ·)) [1 / 4, 1 / 2, 3 / 4] =
      Except.ok [d]) ∧
    r.compute_quartiles = Except.error Fault.undefined := by
  obtain ⟨d, hd⟩ := List.length_eq_one.1 h
  have hq : quantiles (r.elements.insertionSort (· ≤ ·)) [1 / 4, 1 / 2, 3 / 4] =
      Except.ok [d] := by
    rw [hd]; rfl
  refine ⟨⟨d, hq⟩, ?_⟩
  simp only [statRecord.compute_quartiles, hq]
  rfl

/-- With two elements the index for `0.75` is `ceil(1.5) = 2`. -/
theorem quantiles_two (a b : ℚ) :
    quantiles [a, b] [1 / 4, 1 / 2, 3 / 4] = Except.error Fault.out_of_range := by
  have h1 : quantiles.index (1 / 4) 2 = Except.ok 1 :=
    quantiles.index_of_ceil (by norm_num [Int.ceil_eq_iff])
  have h2 : quantiles.index (1 / 2) 2 = Except.ok 1 := quantiles.index_of_ceil (by norm_num)
  have h3 : quantiles.index (3 / 4) 2 = Except.ok 2 :=
    quantiles.index_of_ceil (by norm_num [Int.ceil_eq_iff])
  have e : quantiles [a, b] [1 / 4, 1 / 2, 3 / 4] =
      quantiles.loop [a, b] 2 [1 / 4, 1 / 2, 3 / 4] [] := rfl
  rw [e]
  simp only [quantiles.at, quantiles.loop, h1, h2, h3]
  rfl

/-- With three elements the index for `0.75` is `ceil(2.25) = 3`. -/
theorem quantiles_three (a b c : ℚ) :
    quantiles [a, b, c] [1 / 4, 1 / 2, 3 / 4] = Except.error Fault.out_of_range := by
  have h1 : quantiles.index (1 / 4) 3 = Except.ok 1 :=
    quantiles.index_of_ceil (by norm_num [Int.ceil_eq_iff])
  have h2 : quantiles.index (1 / 2) 3 = Except.ok 2 :=
    quantiles.index_of_ceil (by norm_num [Int.ceil_eq_iff])
  have h3 : quantiles.index (3 / 4) 3 = Except.ok 3 :=
    quantiles.index_of_ceil (by norm_num [Int.ceil_eq_iff])
  have e : quantiles [a, b, c] [1 / 4, 1 / 2, 3 / 4] =
      quantiles.loop [a, b, c] 3 [1 / 4, 1 / 2, 3 / 4] [] := rfl
  rw [e]
  simp only [quantiles.at, quantiles.loop, h1, h2, h3]
  rfl

/-- With two or three elements in the sample buffer `compute_quartiles` stops
with the `std::out_of_range` of `quantiles`. -/
theorem compute_quartiles_two_three (r : statRecord)
    (h : r.elements.length = 2 ∨ r.elements.length = 3) :
    r.compute_quartiles = Except.error Fault.out_of_range := by
  have hl : (r.elements.insertionSort (· ≤ ·)).length = r.elements.length :=
    List.length_insertionSort _ _
  have hq : quantiles (r.elements.insertionSort (· ≤ ·)) [1 / 4, 1 / 2, 3 / 4] =
      Except.error Fault.out_of_range := by
    generalize r.elements.insertionSort (· ≤ ·) = s at hl
    rw [← hl] at h
    match s, h with
    | [a, b], _ => exact quantiles_two a b
    | [a, b, c], _ => exact quantiles_three a b c
    | [], h => simp at h
    | [_], h => simp at h
    | _ :: _ :: _ :: _ :: _, h => simp at h
  simp only [statRecord.compute_quartiles, hq]

/-- Once `min` is non-negative, non-negative values leave in it the smallest
of the old `min` and the values. -/
theorem ingest_min_nonneg (r : statRecord) (xs : List ℚ) (h0 : 0 ≤ r.min)
    (hpos : ∀ x ∈ xs, 0 ≤ x) :
    (ingest r xs).min ≤ r.min ∧ (∀ x ∈ xs, (ingest r xs).min ≤ x) ∧
      ((ingest r xs).min = r.min ∨ (ingest r xs).min ∈ xs) := by
  induction xs generalizing r with
  | nil => exact ⟨le_refl _, fun x hx => absurd hx (List.not_mem_nil _), Or.inl rfl⟩
  | cons y ys ih =>
    have hy : 0 ≤ y := hpos y (List.mem_cons_self _ _)
    have hstep : (r.process_val y).min = if y < r.min then y else r.min := by
      rw [statRecord.process_val_min]
      have : ¬ r.min < 0 := not_lt.2 h0
      simp [this]
    have hge : 0 ≤ (r.process_val y).min := by
      rw [hstep]; split_ifs <;> assumption
    obtain ⟨h1, h2, h3⟩ := ih (r.process_val y) hge
      (fun x hx => hpos x (List.mem_cons_of_mem _ hx))
    have hle : (r.process_val y).min ≤ r.min ∧ (r.process_val y).min ≤ y := by
      rw [hstep]
      split_ifs with h
      · exact ⟨le_of_lt h, le_refl _⟩
      · exact ⟨le_refl _, not_lt.1 h⟩
    rw [ingest_cons]
    refine ⟨le_trans h1 hle.1, fun x hx => ?_, ?_⟩
    · rcases List.mem_cons.1 hx with rfl | hm
      · exact le_trans h1 hle.2
      · exact h2 x hm
    · rcases h3 with h3 | h3
      · rw [h3, hstep]
        split_ifs
        · exact Or.inr (List.mem_cons_self _ _)
        · exact Or.inl rfl
      · exact Or.inr (List.mem_cons_of_mem _ h3)

/-- The sum of a list lies between its length times a lower bound and its
length times an upper bound of the elements. -/
theorem sum_bounds (xs : List ℚ) (a b : ℚ) (ha : ∀ x ∈ xs, a ≤ x) (hb : ∀ x ∈ xs, x ≤ b) :
    (xs.length : ℚ) * a ≤ xs.sum ∧ xs.sum ≤ (xs.length : ℚ) * b := by
  induction xs with
  | nil => simp
  | cons y ys ih =>
    obtain ⟨h1, h2⟩ := ih (fun x hx => ha x (List.mem_cons_of_mem _ hx))
      (fun x hx => hb x (List.mem_cons_of_mem _ hx))
    have hya := ha y (List.mem_cons_self _ _)
    have hyb := hb y (List.mem_cons_self _ _)
    simp only [List.length_cons, List.sum_cons, Nat.cast_add, Nat.cast_one]
    constructor <;> nlinarith

/-- On non-negative values the extrema of a fresh record are the extrema of
the stream, and the mean lies between them. -/
theorem ingest_fresh_nonneg (qs : Bool) (xs : List ℚ) (hne : xs ≠ [])
    (hpos : ∀ x ∈ xs, 0 ≤ x) :
    (ingest (statRecord.ctor_qs qs) xs).min ∈ xs ∧
    (∀ x ∈ xs, (ingest (statRecord.ctor_qs qs) xs).min ≤ x) ∧
    (ingest (statRecord.ctor_qs qs) xs).max ∈ xs ∧
    (∀ x ∈ xs, x ≤ (ingest (statRecord.ctor_qs qs) xs).max) ∧
    ∃ m : ℚ, (finalize (ingest (statRecord.ctor_qs qs) xs)).mean = some m ∧
      (finalize (ingest (statRecord.ctor_qs qs) xs)).min ≤ m ∧
      m ≤ (finalize (ingest (statRecord.ctor_qs qs) xs)).max := by
  have hmin : (ingest (statRecord.ctor_qs qs) xs).min ∈ xs ∧
      (∀ x ∈ xs, (ingest (statRecord.ctor_qs qs) xs).min ≤ x) := by
    match xs, hne, hpos with
    | y :: ys, _, hpos =>
      have hy : 0 ≤ y := hpos y (List.mem_cons_self _ _)
      have h1 : ((statRecord.ctor_qs qs).process_val y).min = y := by
        rw [statRecord.process_val_min]
        have : (statRecord.ctor_qs qs).min < 0 := by
          show (-1 : ℚ) < 0; norm_num
        simp [this]
      obtain ⟨ha, hb, hc⟩ := ingest_min_nonneg ((statRecord.ctor_qs qs).process_val y) ys
        (by rw [h1]; exact hy) (fun x hx => hpos x (List.mem_cons_of_mem _ hx))
      rw [h1] at ha hc
      rw [ingest_cons]
      constructor
      · rcases hc with hc | hc
        · rw [hc]; exact List.mem_cons_self _ _
        · exact List.mem_cons_of_mem _ hc
      · intro x hx
        rcases List.mem_cons.1 hx with rfl | hm
        · exact ha
        · exact hb x hm
  have hmaxge := (ingest_max_ge (statRecord.ctor_qs qs) xs).2
  have hmax : (ingest (statRecord.ctor_qs qs) xs).max ∈ xs := by
    rcases ingest_max_mem (statRecord.ctor_qs qs) xs with h | h
    · have h0 : (ingest (statRecord.ctor_qs qs) xs).max = 0 := h
      match xs, hne, hpos, hmaxge with
      | y :: ys, _, hpos, hmaxge =>
        have hy0 : 0 ≤ y := hpos y (List.mem_cons_self _ _)
        have hy1 : y ≤ 0 := by
          have := hmaxge y (List.mem_cons_self _ _)
          rwa [h0] at this
        have hy : y = 0 := le_antisymm hy1 hy0
        rw [h0, ← hy]
        exact List.mem_cons_self _ _
    · exact h
  refine ⟨hmin.1, hmin.2, hmax, hmaxge, xs.sum / (xs.length : ℚ),
    (finalize_ingest_fresh qs xs hne).1, ?_, ?_⟩
  · rw [finalize_min]
    have hl : (0 : ℚ) < (xs.length : ℚ) := by
      have : 0 < xs.length := List.length_pos.2 hne
      exact_mod_cast this
    rw [le_div_iff₀ hl]
    have := (sum_bounds xs _ _ hmin.2 hmaxge).1
    linarith
  · rw [finalize_max]
    have hl : (0 : ℚ) < (xs.length : ℚ) := by
      have : 0 < xs.length := List.length_pos.2 hne
      exact_mod_cast this
    rw [div_le_iff₀ hl]
    have := (sum_bounds xs _ _ hmin.2 hmaxge).2
    linarith

namespace Fval

/-- The binade of `x` determines the logarithm that `ulp_exp` takes. -/
theorem log_abs_eq {x : ℚ} {E : Int} (h1 : (2 : ℚ) ^ E ≤ |x|) (h2 : |x| < (2 : ℚ) ^ (E + 1)) :
    Int.log 2 |x| = E := by
  have hpos : 0 < |x| := lt_of_lt_of_le (zpow_pos (by norm_num) E) h1
  have ha : Int.log 2 |x| < E + 1 :=
    (Int.lt_zpow_iff_log_lt (b := 2) (by norm_num) hpos).1 (by exact_mod_cast h2)
  have hb : E ≤ Int.log 2 |x| :=
    (Int.zpow_le_iff_le_log (b := 2) (by norm_num) hpos).1 (by exact_mod_cast h1)
  omega

theorem ulp_exp_eq {x : ℚ} {E : Int} (h1 : (2 : ℚ) ^ E ≤ |x|) (h2 : |x| < (2 : ℚ) ^ (E + 1))
    (hE : -126 ≤ E) : ulp_exp x = E - 23 := by
  rw [ulp_exp, log_abs_eq h1 h2, max_eq_left hE]

theorem rne_intCast (k : Int) : rne (k : ℚ) = k := by
  simp [rne]

theorem floor_le_rne (q : ℚ) : ⌊q⌋ ≤ rne q := by
  unfold rne; split_ifs <;> omega

theorem rne_le_floor_add_one (q : ℚ) : rne q ≤ ⌊q⌋ + 1 := by
  unfold rne; split_ifs <;> omega

/-- A value less than half a unit above an integer rounds down to it. -/
theorem rne_eq_of_lt_half {q : ℚ} {k : Int} (h1 : (k : ℚ) ≤ q) (h2 : q - (k : ℚ) < 1 / 2) :
    rne q = k := by
  have hf : ⌊q⌋ = k := by
    rw [Int.floor_eq_iff]
    constructor
    · exact h1
    · linarith
  unfold rne
  rw [hf, if_pos h2]

/-- A value half a unit above an even integer rounds down to it. -/
theorem rne_tie_even {q : ℚ} {k : Int} (h : q = (k : ℚ) + 1 / 2) (hk : k % 2 = 0) :
    rne q = k := by
  have hf : ⌊q⌋ = k := by
    rw [Int.floor_eq_iff]
    constructor <;> linarith
  have hd : q - (k : ℚ) = 1 / 2 := by linarith
  unfold rne
  rw [hf, hd, if_neg (lt_irrefl _), if_neg (lt_irrefl _), if_pos hk]

/-- The rounding of `x`, once its binade is known. -/
theorem round32_eval {x : ℚ} {E : Int} (h1 : (2 : ℚ) ^ E ≤ |x|) (h2 : |x| < (2 : ℚ) ^ (E + 1))
    (hE : -126 ≤ E) :
    round32 x =
      if (2 : ℚ) ^ 128 ≤ (rne (x / 2 ^ (E - 23)) : ℚ) * 2 ^ (E - 23) then pinf
      else if (rne (x / 2 ^ (E - 23)) : ℚ) * 2 ^ (E - 23) ≤ -2 ^ 128 then ninf
      else fin ((rne (x / 2 ^ (E - 23)) : ℚ) * 2 ^ (E - 23)) := by
  simp only [round32, ulp_exp_eq h1 h2 hE]

/-- A binary32 value is its own rounding: at most 24 significant bits and an
exponent in the binary32 range. -/
theorem round32_of_representable (m e : Int) (hm : |m| < 2 ^ 24) (he1 : -149 ≤ e)
    (he2 : e ≤ 104) : round32 ((m : ℚ) * 2 ^ e) = fin ((m : ℚ) * 2 ^ e) := by
  have h2pos : ∀ z : Int, (0 : ℚ) < 2 ^ z := fun z => zpow_pos (by norm_num) z
  by_cases hm0 : m = 0
  · subst hm0
    simp [round32, rne]
    norm_num
  · have hmq : |(m : ℚ)| < 2 ^ (24 : Int) := by
      have h : |(m : ℚ)| < (2 : ℚ) ^ (24 : Nat) := by exact_mod_cast hm
      calc |(m : ℚ)| < (2 : ℚ) ^ (24 : Nat) := h
        _ = 2 ^ (24 : Int) := by norm_num
    have hxabs : |(m : ℚ) * 2 ^ e| = |(m : ℚ)| * 2 ^ e := by
      rw [abs_mul, abs_of_pos (h2pos e)]
    have hxpos : 0 < |(m : ℚ) * 2 ^ e| := by
      rw [hxabs]
      exact mul_pos (abs_pos.2 (by exact_mod_cast hm0)) (h2pos e)
    have hxlt : |(m : ℚ) * 2 ^ e| < 2 ^ (24 + e) := by
      rw [hxabs, zpow_add₀ (by norm_num : (2 : ℚ) ≠ 0)]
      exact mul_lt_mul_of_pos_right hmq (h2pos e)
    have hlog : Int.log 2 |(m : ℚ) * 2 ^ e| < 24 + e :=
      (Int.lt_zpow_iff_log_lt (b := 2) (by norm_num) hxpos).1 (by exact_mod_cast hxlt)
    have hu : ulp_exp ((m : ℚ) * 2 ^ e) ≤ e := by
      unfold ulp_exp
      have : max (Int.log 2 |(m : ℚ) * 2 ^ e|) (-126) ≤ 23 + e := max_le (by omega) (by omega)
      omega
    obtain ⟨n, hn⟩ := Int.eq_ofNat_of_zero_le (sub_nonneg.2 hu)
    have hq : (m : ℚ) * 2 ^ e / 2 ^ ulp_exp ((m : ℚ) * 2 ^ e) = ((m * 2 ^ n : Int) : ℚ) := by
      rw [mul_div_assoc, ← zpow_sub₀ (by norm_num : (2 : ℚ) ≠ 0), hn, zpow_natCast]
      push_cast
      rfl
    have hy : ((m * 2 ^ n : Int) : ℚ) * 2 ^ ulp_exp ((m : ℚ) * 2 ^ e) = (m : ℚ) * 2 ^ e := by
      have he : e = (n : Int) + ulp_exp ((m : ℚ) * 2 ^ e) := by omega
      conv_rhs => rw [he, zpow_add₀ (by norm_num : (2 : ℚ) ≠ 0), zpow_natCast]
      push_cast
      ring
    have hbound : |(m : ℚ) * 2 ^ e| < 2 ^ (128 : Int) := by
      refine lt_of_lt_of_le hxlt ?_
      exact zpow_le_zpow_right₀ (by norm_num) (by omega)
    have hb := abs_lt.1 hbound
    have h128 : ((2 : ℚ) ^ (128 : Int)) = 2 ^ 128 := by norm_num
    rw [h128] at hb
    simp only [round32, hq, rne_intCast, hy]
    rw [if_neg (not_le.2 hb.2), if_neg (not_le.2 hb.1)]

/-- A natural number below `2^24` converts to `float` without rounding. -/
theorem of_nat_eq (N : Nat) (hN : N < 2 ^ 24) : of_nat N = fin (N : ℚ) := by
  have h := round32_of_representable (N : Int) 0 (by simpa using (by exact_mod_cast hN))
    (by norm_num) (by norm_num)
  simpa [of_nat] using h

end Fval

namespace Fval

/-- Rounding does not go below a natural number up to `2^24` that the exact
value reaches. -/
theorem round32_ge_nat (N : Nat) (hN1 : 1 ≤ N) (hN : N ≤ 2 ^ 24) (x : ℚ) (hx : (N : ℚ) ≤ x) :
    round32 x = pinf ∨ ∃ y : ℚ, round32 x = fin y ∧ (N : ℚ) ≤ y := by
  have h2pos : ∀ z : Int, (0 : ℚ) < 2 ^ z := fun z => zpow_pos (by norm_num) z
  have hN1q : (1 : ℚ) ≤ (N : ℚ) := by exact_mod_cast hN1
  have hx1 : (1 : ℚ) ≤ x := le_trans hN1q hx
  have hxpos : 0 < x := by linarith
  have habs : |x| = x := abs_of_pos hxpos
  have hE0 : 0 ≤ Int.log 2 x :=
    (Int.zpow_le_iff_le_log (b := 2) (by norm_num) hxpos).1 (by simpa using hx1)
  have hEx : (2 : ℚ) ^ (Int.log 2 x) ≤ x := by
    have := Int.zpow_log_le_self (b := 2) (by norm_num) hxpos
    simpa using this
  have hu : ulp_exp x = Int.log 2 x - 23 := by
    rw [ulp_exp, habs, max_eq_left (by omega)]
  have hk := floor_le_rne (x / 2 ^ (Int.log 2 x - 23))
  have hy : (N : ℚ) ≤ (rne (x / 2 ^ (Int.log 2 x - 23)) : ℚ) * 2 ^ (Int.log 2 x - 23) := by
    by_cases hc : Int.log 2 x - 23 ≤ 0
    · obtain ⟨n, hn⟩ := Int.eq_ofNat_of_zero_le (show 0 ≤ -(Int.log 2 x - 23) by omega)
      have hpow : (2 : ℚ) ^ (Int.log 2 x - 23) = ((2 : ℚ) ^ n)⁻¹ := by
        have : Int.log 2 x - 23 = -(n : Int) := by omega
        rw [this, zpow_neg, zpow_natCast]
      have hj : ((N * 2 ^ n : Nat) : Int) ≤ ⌊x / 2 ^ (Int.log 2 x - 23)⌋ := by
        rw [Int.le_floor, hpow]
        push_cast
        rw [div_inv_eq_mul]
        exact mul_le_mul_of_nonneg_right hx (by positivity)
      have hj2 : ((N * 2 ^ n : Nat) : Int) ≤ rne (x / 2 ^ (Int.log 2 x - 23)) := le_trans hj hk
      have hj3 : (((N * 2 ^ n : Nat) : Int) : ℚ) ≤ (rne (x / 2 ^ (Int.log 2 x - 23)) : ℚ) := by
        exact_mod_cast hj2
      have hpos2 : (0 : ℚ) < ((2 : ℚ) ^ n)⁻¹ := by positivity
      calc (N : ℚ) = (((N * 2 ^ n : Nat) : Int) : ℚ) * ((2 : ℚ) ^ n)⁻¹ := by
            push_cast
            field_simp
        _ ≤ (rne (x / 2 ^ (Int.log 2 x - 23)) : ℚ) * ((2 : ℚ) ^ n)⁻¹ :=
            mul_le_mul_of_nonneg_right hj3 (le_of_lt hpos2)
        _ = (rne (x / 2 ^ (Int.log 2 x - 23)) : ℚ) * 2 ^ (Int.log 2 x - 23) := by rw [hpow]
    · have hE24 : (24 : Int) ≤ Int.log 2 x := by omega
      have hdiv : ((2 ^ 23 : Int) : ℚ) ≤ x / 2 ^ (Int.log 2 x - 23) := by
        rw [le_div_iff₀ (h2pos _)]
        have h23 : ((2 ^ 23 : Int) : ℚ) = (2 : ℚ) ^ (23 : Int) := by norm_num
        rw [h23, ← zpow_add₀ (by norm_num : (2 : ℚ) ≠ 0)]
        have : (23 : Int) + (Int.log 2 x - 23) = Int.log 2 x := by ring
        rw [this]
        exact hEx
      have hfl : (2 ^ 23 : Int) ≤ rne (x / 2 ^ (Int.log 2 x - 23)) :=
        le_trans (Int.le_floor.2 hdiv) hk
      have hfl2 : ((2 ^ 23 : Int) : ℚ) ≤ (rne (x / 2 ^ (Int.log 2 x - 23)) : ℚ) := by
        exact_mod_cast hfl
      have hNle : (N : ℚ) ≤ (2 : ℚ) ^ (24 : Int) := by
        have : (N : ℚ) ≤ ((2 ^ 24 : Nat) : ℚ) := by exact_mod_cast hN
        calc (N : ℚ) ≤ ((2 ^ 24 : Nat) : ℚ) := this
          _ = (2 : ℚ) ^ (24 : Int) := by norm_num
      calc (N : ℚ) ≤ (2 : ℚ) ^ (24 : Int) := hNle
        _ ≤ (2 : ℚ) ^ (Int.log 2 x) := zpow_le_zpow_right₀ (by norm_num) hE24
        _ = ((2 ^ 23 : Int) : ℚ) * 2 ^ (Int.log 2 x - 23) := by
            have h23 : ((2 ^ 23 : Int) : ℚ) = (2 : ℚ) ^ (23 : Int) := by norm_num
            rw [h23, ← zpow_add₀ (by norm_num : (2 : ℚ) ≠ 0)]
            congr 1
            ring
        _ ≤ (rne (x / 2 ^ (Int.log 2 x - 23)) : ℚ) * 2 ^ (Int.log 2 x - 23) :=
            mul_le_mul_of_nonneg_right hfl2 (le_of_lt (h2pos _))
  simp only [round32, hu]
  by_cases h1 : (2 : ℚ) ^ 128 ≤ (rne (x / 2 ^ (Int.log 2 x - 23)) : ℚ) * 2 ^ (Int.log 2 x - 23)
  · left; rw [if_pos h1]
  · right
    have h2 : ¬ ((rne (x / 2 ^ (Int.log 2 x - 23)) : ℚ) * 2 ^ (Int.log 2 x - 23) ≤ -2 ^ 128) := by
      intro hcon
      have : (N : ℚ) ≤ -2 ^ 128 := le_trans hy hcon
      have h0 : (0 : ℚ) < 2 ^ 128 := by positivity
      linarith
    rw [if_neg h1, if_neg h2]
    exact ⟨_, rfl, hy⟩

/-- The rounding of a negative value is not positive. -/
theorem round32_neg (x : ℚ) (hx : x < 0) :
    round32 x = ninf ∨ ∃ y : ℚ, round32 x = fin y ∧ y ≤ 0 := by
  have h2pos : (0 : ℚ) < 2 ^ ulp_exp x := zpow_pos (by norm_num) _
  have hq : x / 2 ^ ulp_exp x < 0 := div_neg_of_neg_of_pos hx h2pos
  have hfl : ⌊x / 2 ^ ulp_exp x⌋ < 0 := by
    rw [Int.floor_lt]
    simpa using hq
  have hk : rne (x / 2 ^ ulp_exp x) ≤ 0 := by
    have := rne_le_floor_add_one (x / 2 ^ ulp_exp x)
    omega
  have hkq : (rne (x / 2 ^ ulp_exp x) : ℚ) ≤ 0 := by exact_mod_cast hk
  have hy : (rne (x / 2 ^ ulp_exp x) : ℚ) * 2 ^ ulp_exp x ≤ 0 :=
    mul_nonpos_of_nonpos_of_nonneg hkq (le_of_lt h2pos)
  have h1 : ¬ ((2 : ℚ) ^ 128 ≤ (rne (x / 2 ^ ulp_exp x) : ℚ) * 2 ^ ulp_exp x) := by
    intro hcon
    have h0 : (0 : ℚ) < 2 ^ 128 := by positivity
    linarith
  simp only [round32]
  rw [if_neg h1]
  by_cases h2 : (rne (x / 2 ^ ulp_exp x) : ℚ) * 2 ^ ulp_exp x ≤ -2 ^ 128
  · left; rw [if_pos h2]
  · right; rw [if_neg h2]; exact ⟨_, rfl, hy⟩

/-- The conversion to `size_t` of the ceiling of a finite float. -/
theorem to_size_t_ceil (y : ℚ) :
    to_size_t (ceil (fin y)) =
      if (0 : Int) ≤ ⌈y⌉ ∧ ⌈y⌉ < 2 ^ 64 then Except.ok ⌈y⌉.toNat
      else Except.error Fault.undefined := by
  have hc : ((-1 : ℚ) < (⌈y⌉ : ℚ) ∧ (⌈y⌉ : ℚ) < 2 ^ 64) ↔ ((0 : Int) ≤ ⌈y⌉ ∧ ⌈y⌉ < 2 ^ 64) := by
    constructor
    · rintro ⟨h1, h2⟩
      have h1i : (-1 : Int) < ⌈y⌉ := by exact_mod_cast h1
      have h2i : ⌈y⌉ < (2 ^ 64 : Int) := by exact_mod_cast h2
      exact ⟨by omega, h2i⟩
    · rintro ⟨h1, h2⟩
      have h1i : (-1 : Int) < ⌈y⌉ := by omega
      exact ⟨by exact_mod_cast h1i, by exact_mod_cast h2⟩
  simp only [ceil, to_size_t]
  by_cases h : (0 : Int) ≤ ⌈y⌉ ∧ ⌈y⌉ < 2 ^ 64
  · have h0 : (0 : ℚ) ≤ (⌈y⌉ : ℚ) := by exact_mod_cast h.1
    rw [if_pos (hc.2 h), if_pos h, if_pos h0, Int.floor_intCast]
  · rw [if_neg (fun hh => h (hc.1 hh)), if_neg h]

end Fval

/-- The binary32 index, when `N` converts to `float` without rounding. -/
theorem quantiles.index_f32_eq (p : ℚ) (N : Nat) (hN : N < 2 ^ 24) :
    quantiles.index_f32 p N =
      Fval.to_size_t (Fval.ceil (Fval.round32 (p * (N : ℚ)))) := by
  rw [quantiles.index_f32, Fval.of_nat_eq N hN]
  rfl

/-- Where the product `p * N` is a binary32 value, the binary32 index is the
exact index. -/
theorem quantiles.index_f32_eq_index (p : ℚ) (N : Nat) (hN : N < 2 ^ 24) (m e : Int)
    (hrep : p * (N : ℚ) = (m : ℚ) * 2 ^ e) (hm : |m| < 2 ^ 24) (he1 : -149 ≤ e) (he2 : e ≤ 104)
    (hlt : p * (N : ℚ) ≤ 2 ^ 63) :
    quantiles.index_f32 p N = quantiles.index p N := by
  have hr : Fval.round32 (p * (N : ℚ)) = Fval.fin (p * (N : ℚ)) := by
    rw [hrep]
    exact Fval.round32_of_representable m e hm he1 he2
  have hc : ⌈p * (N : ℚ)⌉ < 2 ^ 64 := by
    have : ⌈p * (N : ℚ)⌉ ≤ 2 ^ 63 := by
      rw [Int.ceil_le]
      exact_mod_cast hlt
    omega
  rw [quantiles.index_f32_eq p N hN, hr, Fval.to_size_t_ceil, quantiles.index]
  by_cases h0 : ⌈p * (N : ℚ)⌉ < 0
  · rw [if_neg (fun hh => by omega), if_pos h0]
  · rw [if_pos ⟨by omega, hc⟩, if_neg h0]

/-- For two or more elements `quantiles_f32` is its loop. -/
theorem quantiles_f32_eq_loop (data ps : List ℚ) (hN : 2 ≤ data.length) :
    quantiles_f32 data ps = quantiles.loop_f32 data data.length ps [] := by
  match data, hN with
  | _ :: _ :: _, _ => rfl

/-- When every binary32 index is in range the loop pushes one element of
`data` per probability. -/
theorem quantiles.loop_f32_ok (data : List ℚ) (N : Nat) (ps acc : List ℚ) (idx : ℚ → Nat)
    (h : ∀ p ∈ ps, quantiles.index_f32 p N = Except.ok (idx p) ∧ idx p < data.length) :
    quantiles.loop_f32 data N ps acc =
      Except.ok (acc ++ ps.map (fun p => data.getD (idx p) 0)) := by
  induction ps generalizing acc with
  | nil => simp [quantiles.loop_f32]
  | cons p ps ih =>
    obtain ⟨hi, h1⟩ := h p (List.mem_cons_self _ _)
    have ha : quantiles.at data (idx p) = Except.ok (data.getD (idx p) 0) := by
      simp [quantiles.at, List.getElem?_eq_getElem h1, List.getD_eq_getElem?_getD]
    rw [quantiles.loop_f32, hi]
    simp only [ha]
    rw [ih _ (fun q hq => h q (List.mem_cons_of_mem _ hq))]
    simp

/-- The binary32 loop fails as soon as one of the probabilities has no index
inside `data`. -/
theorem quantiles.loop_f32_error_of_mem (data : List ℚ) (N : Nat) (ps acc : List ℚ) (p : ℚ)
    (hp : p ∈ ps) (hbad : ∀ k, quantiles.index_f32 p N = Except.ok k → data.length ≤ k) :
    ∃ e, quantiles.loop_f32 data N ps acc = Except.error e := by
  induction ps generalizing acc with
  | nil => exact absurd hp (List.not_mem_nil _)
  | cons q rest ih =>
    cases hi : quantiles.index_f32 q N with
    | error e => exact ⟨e, by rw [quantiles.loop_f32, hi]⟩
    | ok k =>
      cases ha : quantiles.at data k with
      | error e => exact ⟨e, by rw [quantiles.loop_f32, hi]; simp only [ha]⟩
      | ok v =>
        rcases List.mem_cons.1 hp with rfl | hmem
        · have hk := hbad k hi
          simp [quantiles.at, List.getElem?_eq_none hk] at ha
        · rw [quantiles.loop_f32, hi]
          simp only [ha]
          exact ih _ hmem

/-- Where the binary32 indices are the exact ones, the two loops agree. -/
theorem quantiles.loop_f32_congr (data : List ℚ) (N : Nat) (ps acc : List ℚ)
    (h : ∀ p ∈ ps, quantiles.index_f32 p N = quantiles.index p N) :
    quantiles.loop_f32 data N ps acc = quantiles.loop data N ps acc := by
  induction ps generalizing acc with
  | nil => rfl
  | cons p ps ih =>
    rw [quantiles.loop_f32, quantiles.loop, h p (List.mem_cons_self _ _)]
    cases quantiles.index p N with
    | error e => rfl
    | ok k =>
      dsimp only
      cases quantiles.at data k with
      | error e => rfl
      | ok v => exact ih _ (fun q hq => h q (List.mem_cons_of_mem _ hq))

theorem quantiles_f32_congr (data ps : List ℚ)
    (h : ∀ p ∈ ps, quantiles.index_f32 p data.length = quantiles.index p data.length) :
    quantiles_f32 data ps = quantiles data ps := by
  match data, h with
  | [], _ => rfl
  | [_], _ => rfl
  | a :: b :: rest, h => exact quantiles.loop_f32_congr (a :: b :: rest) _ ps [] h

/-- Up to 5592405 elements (`3N < 2^24`) the three quartile products `N/4`,
`N/2` and `3N/4` are binary32 values, so that no rounding takes place in the
index. -/
theorem quartile_index_f32_eq_small (N : Nat) (hN : N ≤ 5592405) :
    ∀ p ∈ ([1 / 4, 1 / 2, 3 / 4] : List ℚ),
      quantiles.index_f32 p N = quantiles.index p N := by
  have hNq : (N : ℚ) ≤ 5592405 := by exact_mod_cast hN
  have hN0 : (0 : ℚ) ≤ (N : ℚ) := Nat.cast_nonneg N
  have hN24 : N < 2 ^ 24 := by omega
  intro p hp
  simp only [List.mem_cons, List.mem_singleton, List.not_mem_nil, or_false] at hp
  rcases hp with rfl | rfl | rfl
  · refine quantiles.index_f32_eq_index _ N hN24 (N : Int) (-2) ?_ ?_ (by norm_num) (by norm_num) ?_
    · rw [zpow_neg]; push_cast; norm_num; ring
    · rw [abs_of_nonneg (by positivity)]; exact_mod_cast hN24
    · nlinarith
  · refine quantiles.index_f32_eq_index _ N hN24 (N : Int) (-1) ?_ ?_ (by norm_num) (by norm_num) ?_
    · rw [zpow_neg]; push_cast; norm_num; ring
    · rw [abs_of_nonneg (by positivity)]; exact_mod_cast hN24
    · nlinarith
  · refine quantiles.index_f32_eq_index _ N hN24 (3 * (N : Int)) (-2) ?_ ?_ (by norm_num)
      (by norm_num) ?_
    · rw [zpow_neg]; push_cast; norm_num; ring
    · rw [abs_of_nonneg (by positivity)]; omega
    · nlinarith

/-- Up to 5592406 elements the three quartile products are binary32 values:
for 5592406 elements `3N/4 = 4194304.5` still is one. -/
theorem quartile_index_f32_eq (N : Nat) (hN : N ≤ 5592406) :
    ∀ p ∈ ([1 / 4, 1 / 2, 3 / 4] : List ℚ),
      quantiles.index_f32 p N = quantiles.index p N := by
  rcases Nat.lt_or_ge N 5592406 with h | h
  · exact quartile_index_f32_eq_small N (by omega)
  · have hN2 : N = 5592406 := by omega
    subst hN2
    intro p hp
    simp only [List.mem_cons, List.mem_singleton, List.not_mem_nil, or_false] at hp
    rcases hp with rfl | rfl | rfl
    · exact quantiles.index_f32_eq_index _ 5592406 (by norm_num) 2796203 (-1) (by norm_num)
        (by norm_num) (by norm_num) (by norm_num) (by norm_num)
    · exact quantiles.index_f32_eq_index _ 5592406 (by norm_num) 2796203 0 (by norm_num)
        (by norm_num) (by norm_num) (by norm_num) (by norm_num)
    · exact quantiles.index_f32_eq_index _ 5592406 (by norm_num) 8388609 (-1) (by norm_num)
        (by norm_num) (by norm_num) (by norm_num) (by norm_num)

namespace Fval

/-- A value more than half a unit above an integer rounds up to the next. -/
theorem rne_eq_succ_of_gt_half {q : ℚ} {k : Int} (h1 : 1 / 2 < q - (k : ℚ))
    (h2 : q < (k : ℚ) + 1) : rne q = k + 1 := by
  have hf : ⌊q⌋ = k := by
    rw [Int.floor_eq_iff]
    constructor <;> linarith
  unfold rne
  rw [hf, if_neg (not_lt.2 (le_of_lt h1)), if_pos h1]

/-- A value half a unit above an odd integer rounds up to the even one. -/
theorem rne_tie_odd {q : ℚ} {k : Int} (h : q = (k : ℚ) + 1 / 2) (hk : k % 2 = 1) :
    rne q = k + 1 := by
  have hf : ⌊q⌋ = k := by
    rw [Int.floor_eq_iff]
    constructor <;> linarith
  have hd : q - (k : ℚ) = 1 / 2 := by linarith
  unfold rne
  rw [hf, hd, if_neg (lt_irrefl _), if_neg (lt_irrefl _), if_neg (by omega)]

/-- The rounding of a positive value whose binade and rounded significand are
known, when the result is finite. -/
theorem round32_fin_of_pos {x : ℚ} {E k : Int} (h0 : 0 < x) (h1 : (2 : ℚ) ^ E ≤ x)
    (h2 : x < (2 : ℚ) ^ (E + 1)) (hE : -126 ≤ E) (hk : rne (x / 2 ^ (E - 23)) = k)
    (hk0 : 0 ≤ k) (hb : (k : ℚ) * 2 ^ (E - 23) < 2 ^ 128) :
    round32 x = fin ((k : ℚ) * 2 ^ (E - 23)) := by
  have habs : |x| = x := abs_of_pos h0
  rw [round32_eval (E := E) (by rw [habs]; exact h1) (by rw [habs]; exact h2) hE, hk]
  have hnn : (0 : ℚ) ≤ (k : ℚ) * 2 ^ (E - 23) :=
    mul_nonneg (by exact_mod_cast hk0) (le_of_lt (zpow_pos (by norm_num) _))
  have h128 : (0 : ℚ) < 2 ^ 128 := by positivity
  rw [if_neg (not_le.2 hb), if_neg (by intro hc; linarith)]

/-- The rounding of a positive value whose rounded result reaches `2^128`. -/
theorem round32_pinf_of_pos {x : ℚ} {E k : Int} (h0 : 0 < x) (h1 : (2 : ℚ) ^ E ≤ x)
    (h2 : x < (2 : ℚ) ^ (E + 1)) (hE : -126 ≤ E) (hk : rne (x / 2 ^ (E - 23)) = k)
    (hb : (2 : ℚ) ^ 128 ≤ (k : ℚ) * 2 ^ (E - 23)) :
    round32 x = pinf := by
  have habs : |x| = x := abs_of_pos h0
  rw [round32_eval (E := E) (by rw [habs]; exact h1) (by rw [habs]; exact h2) hE, hk, if_pos hb]

end Fval

/-- The index of `0.2f` (the binary32 value 13421773/67108864) for five
elements: the product 1.0000000149 rounds to 1.0, whose ceiling is 1. -/
theorem quantiles.index_f32_fifth :
    quantiles.index_f32 (13421773 / 67108864) 5 = Except.ok 1 := by
  have hr : Fval.round32 ((13421773 / 67108864 : ℚ) * ((5 : Nat) : ℚ)) = Fval.fin 1 := by
    have hk : Fval.rne ((13421773 / 67108864 : ℚ) * ((5 : Nat) : ℚ) / 2 ^ ((0 : Int) - 23)) =
        8388608 :=
      Fval.rne_eq_of_lt_half (by norm_num) (by norm_num)
    rw [Fval.round32_fin_of_pos (E := 0) (k := 8388608) (by norm_num) (by norm_num)
      (by norm_num) (by norm_num) hk (by norm_num) (by norm_num)]
    norm_num
  rw [quantiles.index_f32_eq _ 5 (by norm_num), hr, Fval.to_size_t_ceil]
  norm_num

/-- The example of the quartiles of `[1, 2, 3, 4]` at the exact level. -/
theorem quantiles_example :
    quantiles [1, 2, 3, 4] [1 / 4, 1 / 2, 3 / 4] = Except.ok [2, 3, 4] := by
  have h1 : quantiles.index (1 / 4) 4 = Except.ok 1 := quantiles.index_of_ceil (by norm_num)
  have h2 : quantiles.index (1 / 2) 4 = Except.ok 2 := quantiles.index_of_ceil (by norm_num)
  have h3 : quantiles.index (3 / 4) 4 = Except.ok 3 := quantiles.index_of_ceil (by norm_num)
  have e : quantiles [1, 2, 3, 4] [1 / 4, 1 / 2, 3 / 4] =
      quantiles.loop [1, 2, 3, 4] 4 [1 / 4, 1 / 2, 3 / 4] [] := rfl
  rw [e]
  simp only [quantiles.at, quantiles.loop, h1, h2, h3]
  rfl

/-- The index of `0.5f` for five elements: 2.5 is a binary32 value, and its
ceiling is 3. -/
theorem quantiles.index_f32_half_five : quantiles.index_f32 (1 / 2) 5 = Except.ok 3 := by
  rw [quantiles.index_f32_eq_index (1 / 2) 5 (by norm_num) 5 (-1) (by norm_num) (by norm_num)
    (by norm_num) (by norm_num) (by norm_num)]
  exact quantiles.index_of_ceil (by norm_num [Int.ceil_eq_iff])

/-- The index that the binary32 computation gives, or 0 when it gives none. -/
theorem quantiles.index_f32_choice (N : Nat) (p : ℚ) (c : Nat)
    (h : quantiles.index_f32 p N = Except.ok c) :
    (match quantiles.index_f32 p N with
      | Except.ok k => k
      | Except.error _ => 0) = c := by
  rw [h]

/-- For a probability above 1 and up to `2^24` elements the binary32 index,
when the conversion gives one, is past the end of the data. -/
theorem quantiles.index_f32_above_one (p : ℚ) (N : Nat) (hN1 : 1 ≤ N) (hN : N < 2 ^ 24)
    (hp : 1 < p) : ∀ k, quantiles.index_f32 p N = Except.ok k → N ≤ k := by
  intro k hk
  have hNq : (0 : ℚ) < (N : ℚ) := by exact_mod_cast hN1
  have hx : (N : ℚ) ≤ p * (N : ℚ) := by nlinarith
  rw [quantiles.index_f32_eq p N hN] at hk
  rcases Fval.round32_ge_nat N hN1 (le_of_lt hN) _ hx with h | ⟨y, h, hy⟩
  · rw [h] at hk
    simp [Fval.ceil, Fval.to_size_t] at hk
  · rw [h, Fval.to_size_t_ceil] at hk
    have hc : (N : Int) ≤ ⌈y⌉ := by
      have : ((N : Int) : ℚ) ≤ y := by exact_mod_cast hy
      exact Int.le_ceil_iff.2 (by linarith)
    split_ifs at hk with hcond
    · simp only [Except.ok.injEq] at hk
      omega

@[simp]
theorem ingest32_nil (r : statRecord32) : ingest32 r [] = r := rfl

@[simp]
theorem ingest32_cons (r : statRecord32) (v : Fval) (vs : List Fval) :
    ingest32 r (v :: vs) = ingest32 (r.process_val v) vs := rfl

theorem statRecord32.process_val32_min (r : statRecord32) (val : Fval) :
    (r.process_val val).min =
      if Fval.lt val r.min || Fval.lt r.min (Fval.fin 0) then val else r.min := rfl

theorem statRecord32.process_val32_max (r : statRecord32) (val : Fval) :
    (r.process_val val).max = if Fval.lt r.max val then val else r.max := rfl

theorem statRecord32.compute_mean_max (r : statRecord32) : r.compute_mean.max = r.max := rfl

theorem statRecord32.compute_mean_min (r : statRecord32) : r.compute_mean.min = r.min := rfl

/-- A value that is not NaN keeps `min <= max` through `process_val`. -/
theorem statRecord32.process_val_le (r : statRecord32) (val : Fval) (hv : val ≠ Fval.nan)
    (h : Fval.le r.min r.max = true) :
    Fval.le (r.process_val val).min (r.process_val val).max = true := by
  rw [statRecord32.process_val32_min, statRecord32.process_val32_max]
  cases hmin : r.min <;> cases hmax : r.max <;> cases val <;>
    simp_all [Fval.le, Fval.lt] <;>
    (split_ifs <;> simp_all [Fval.le, Fval.lt])

theorem ingest32_le (r : statRecord32) (vs : List Fval) (hv : ∀ v ∈ vs, v ≠ Fval.nan)
    (h : Fval.le r.min r.max = true) :
    Fval.le (ingest32 r vs).min (ingest32 r vs).max = true := by
  induction vs generalizing r with
  | nil => exact h
  | cons v vs ih =>
    exact ih _ (fun w hw => hv w (List.mem_cons_of_mem _ hw))
      (statRecord32.process_val_le r v (hv v (List.mem_cons_self _ _)) h)

/-- On finite values the binary32 `min` and `max` are those of the exact
level. -/
theorem ingest32_fin (r32 : statRecord32) (r : statRecord) (xs : List ℚ)
    (hmin : r32.min = Fval.fin r.min) (hmax : r32.max = Fval.fin r.max) :
    (ingest32 r32 (xs.map Fval.fin)).min = Fval.fin (ingest r xs).min ∧
    (ingest32 r32 (xs.map Fval.fin)).max = Fval.fin (ingest r xs).max := by
  induction xs generalizing r32 r with
  | nil => exact ⟨hmin, hmax⟩
  | cons x xs ih =>
    rw [List.map_cons, ingest32_cons, ingest_cons]
    apply ih
    · rw [statRecord32.process_val32_min, statRecord.process_val_min, hmin]
      simp only [Fval.lt, Bool.or_eq_true, decide_eq_true_eq]
      split_ifs <;> rfl
    · rw [statRecord32.process_val32_max, statRecord.process_val_max, hmax]
      simp only [Fval.lt, decide_eq_true_eq, gt_iff_lt]
      split_ifs <;> rfl

theorem Fval.div_fin (a b : ℚ) (hb : b ≠ 0) :
    Fval.div (Fval.fin a) (Fval.fin b) = Fval.round32 (a / b) := by
  simp [Fval.div, hb]

theorem Fval.of_int_two : Fval.of_int 2 = Fval.fin 2 := by
  have h := Fval.round32_of_representable 2 0 (by norm_num) (by norm_num) (by norm_num)
  simpa [Fval.of_int] using h

theorem Fval.of_int_three : Fval.of_int 3 = Fval.fin 3 := by
  have h := Fval.round32_of_representable 3 0 (by norm_num) (by norm_num) (by norm_num)
  simpa [Fval.of_int] using h

/-- The fields of the binary32 record after a stream of three values and
`compute_mean`, unfolded. -/
theorem ingest32_three (a b c : Fval) :
    ((ingest32 statRecord32.ctor [a, b, c]).compute_mean).mean =
      Fval.div (Fval.add (Fval.add (Fval.add (Fval.fin 0) a) b) c) (Fval.of_int 3) := rfl

/-- The fields of the binary32 record after a stream of two values and
`compute_mean`, unfolded. -/
theorem ingest32_two (a b : Fval) :
    ((ingest32 statRecord32.ctor [a, b]).compute_mean).mean =
      Fval.div (Fval.add (Fval.add (Fval.fin 0) a) b) (Fval.of_int 2) := rfl

/-- Overflow: the binary32 sum of `2^127` and `2^127` is an infinity, and so is
the mean of the two values. -/
theorem mean32_overflow :
    ((ingest32 statRecord32.ctor [Fval.fin (2 ^ 127), Fval.fin (2 ^ 127)]).compute_mean).mean =
      Fval.pinf := by
  have e1 : Fval.add (Fval.fin 0) (Fval.fin (2 ^ 127)) = Fval.fin (2 ^ 127) := by
    have h := Fval.round32_of_representable (2 ^ 23) 104 (by norm_num) (by norm_num)
      (by norm_num)
    have e : (2 : ℚ) ^ 127 = (((2 ^ 23 : Int)) : ℚ) * 2 ^ (104 : Int) := by norm_num
    show Fval.round32 (0 + 2 ^ 127) = Fval.fin (2 ^ 127)
    rw [zero_add, e]
    exact h
  have e2 : Fval.add (Fval.fin (2 ^ 127)) (Fval.fin (2 ^ 127)) = Fval.pinf := by
    have hk : Fval.rne (((2 : ℚ) ^ 127 + 2 ^ 127) / 2 ^ ((128 : Int) - 23)) = 8388608 := by
      have e : ((2 : ℚ) ^ 127 + 2 ^ 127) / 2 ^ ((128 : Int) - 23) = ((8388608 : Int) : ℚ) := by
        norm_num
      rw [e]
      exact Fval.rne_intCast _
    exact Fval.round32_pinf_of_pos (E := 128) (k := 8388608) (by norm_num) (by norm_num)
      (by norm_num) (by norm_num) hk (by norm_num)
  rw [ingest32_two, e1, e2, Fval.of_int_two]
  rfl

/-- Rounding upwards: the binary32 mean of three times the value
5592409/4194304 is 11184819/8388608, which is above the value. -/
theorem mean32_above :
    ((ingest32 statRecord32.ctor [Fval.fin (5592409 / 4194304), Fval.fin (5592409 / 4194304),
      Fval.fin (5592409 / 4194304)]).compute_mean).mean = Fval.fin (11184819 / 8388608) := by
  have e1 : Fval.add (Fval.fin 0) (Fval.fin (5592409 / 4194304)) =
      Fval.fin (5592409 / 4194304) := by
    have h := Fval.round32_of_representable 5592409 (-22) (by norm_num) (by norm_num)
      (by norm_num)
    have e : (5592409 / 4194304 : ℚ) = ((5592409 : Int) : ℚ) * 2 ^ (-22 : Int) := by norm_num
    show Fval.round32 (0 + 5592409 / 4194304) = Fval.fin (5592409 / 4194304)
    rw [zero_add, e]
    exact h
  have e2 : Fval.add (Fval.fin (5592409 / 4194304)) (Fval.fin (5592409 / 4194304)) =
      Fval.fin (5592409 / 2097152) := by
    have h := Fval.round32_of_representable 5592409 (-21) (by norm_num) (by norm_num)
      (by norm_num)
    have e : ((5592409 : Int) : ℚ) * 2 ^ (-21 : Int) = 5592409 / 4194304 + 5592409 / 4194304 := by
      norm_num
    have e3 : ((5592409 : Int) : ℚ) * 2 ^ (-21 : Int) = 5592409 / 2097152 := by norm_num
    show Fval.round32 (5592409 / 4194304 + 5592409 / 4194304) = _
    rw [← e, h, e3]
  have e3 : Fval.add (Fval.fin (5592409 / 2097152)) (Fval.fin (5592409 / 4194304)) =
      Fval.fin (4194307 / 1048576) := by
    have hk : Fval.rne ((5592409 / 2097152 + 5592409 / 4194304 : ℚ) / 2 ^ ((2 : Int) - 23)) =
        8388613 + 1 :=
      Fval.rne_tie_odd (by norm_num) (by norm_num)
    show Fval.round32 (5592409 / 2097152 + 5592409 / 4194304) = _
    rw [Fval.round32_fin_of_pos (E := 2) (k := 8388613 + 1) (by norm_num) (by norm_num)
      (by norm_num) (by norm_num) hk (by norm_num) (by norm_num)]
    norm_num
  have e4 : Fval.div (Fval.fin (4194307 / 1048576)) (Fval.fin 3) =
      Fval.fin (11184819 / 8388608) := by
    have hk : Fval.rne ((4194307 / 1048576 / 3 : ℚ) / 2 ^ ((0 : Int) - 23)) = 11184818 + 1 :=
      Fval.rne_eq_succ_of_gt_half (by norm_num) (by norm_num)
    rw [Fval.div_fin _ _ (by norm_num), Fval.round32_fin_of_pos (E := 0) (k := 11184818 + 1)
      (by norm_num) (by norm_num) (by norm_num) (by norm_num) hk (by norm_num) (by norm_num)]
    norm_num
  rw [ingest32_three, e1, e2, e3, Fval.of_int_three, e4]

/-- Rounding downwards: the binary32 mean of three times the value
5592407/4194304 is 11184813/8388608, which is below the value. -/
theorem mean32_below :
    ((ingest32 statRecord32.ctor [Fval.fin (5592407 / 4194304), Fval.fin (5592407 / 4194304),
      Fval.fin (5592407 / 4194304)]).compute_mean).mean = Fval.fin (11184813 / 8388608) := by
  have e1 : Fval.add (Fval.fin 0) (Fval.fin (5592407 / 4194304)) =
      Fval.fin (5592407 / 4194304) := by
    have h := Fval.round32_of_representable 5592407 (-22) (by norm_num) (by norm_num)
      (by norm_num)
    have e : (5592407 / 4194304 : ℚ) = ((5592407 : Int) : ℚ) * 2 ^ (-22 : Int) := by norm_num
    show Fval.round32 (0 + 5592407 / 4194304) = Fval.fin (5592407 / 4194304)
    rw [zero_add, e]
    exact h
  have e2 : Fval.add (Fval.fin (5592407 / 4194304)) (Fval.fin (5592407 / 4194304)) =
      Fval.fin (5592407 / 2097152) := by
    have h := Fval.round32_of_representable 5592407 (-21) (by norm_num) (by norm_num)
      (by norm_num)
    have e : ((5592407 : Int) : ℚ) * 2 ^ (-21 : Int) = 5592407 / 4194304 + 5592407 / 4194304 := by
      norm_num
    have e3 : ((5592407 : Int) : ℚ) * 2 ^ (-21 : Int) = 5592407 / 2097152 := by norm_num
    show Fval.round32 (5592407 / 4194304 + 5592407 / 4194304) = _
    rw [← e, h, e3]
  have e3 : Fval.add (Fval.fin (5592407 / 2097152)) (Fval.fin (5592407 / 4194304)) =
      Fval.fin (4194305 / 1048576) := by
    have hk : Fval.rne ((5592407 / 2097152 + 5592407 / 4194304 : ℚ) / 2 ^ ((2 : Int) - 23)) =
        8388610 :=
      Fval.rne_tie_even (by norm_num) (by norm_num)
    show Fval.round32 (5592407 / 2097152 + 5592407 / 4194304) = _
    rw [Fval.round32_fin_of_pos (E := 2) (k := 8388610) (by norm_num) (by norm_num)
      (by norm_num) (by norm_num) hk (by norm_num) (by norm_num)]
    norm_num
  have e4 : Fval.div (Fval.fin (4194305 / 1048576)) (Fval.fin 3) =
      Fval.fin (11184813 / 8388608) := by
    have hk : Fval.rne ((4194305 / 1048576 / 3 : ℚ) / 2 ^ ((0 : Int) - 23)) = 11184813 :=
      Fval.rne_eq_of_lt_half (by norm_num) (by norm_num)
    rw [Fval.div_fin _ _ (by norm_num), Fval.round32_fin_of_pos (E := 0) (k := 11184813)
      (by norm_num) (by norm_num) (by norm_num) (by norm_num) hk (by norm_num) (by norm_num)]
    norm_num
  rw [ingest32_three, e1, e2, e3, Fval.of_int_three, e4]

/-- The quartile indices for 5592407 elements: `N/4` and `N/2` are binary32
values, but `3N/4 = 4194305.25` lies halfway between the binary32 values
4194305.0 and 4194305.5 and rounds to the first, whose ceiling is 4194305. -/
theorem quartile_index_f32_5592407 :
    quantiles.index_f32 (1 / 4) 5592407 = Except.ok 1398102 ∧
    quantiles.index_f32 (1 / 2) 5592407 = Except.ok 2796204 ∧
    quantiles.index_f32 (3 / 4) 5592407 = Except.ok 4194305 := by
  refine ⟨?_, ?_, ?_⟩
  · rw [quantiles.index_f32_eq_index (1 / 4) 5592407 (by norm_num) 5592407 (-2) (by norm_num)
      (by norm_num) (by norm_num) (by norm_num) (by norm_num)]
    exact quantiles.index_of_ceil (by norm_num [Int.ceil_eq_iff])
  · rw [quantiles.index_f32_eq_index (1 / 2) 5592407 (by norm_num) 5592407 (-1) (by norm_num)
      (by norm_num) (by norm_num) (by norm_num) (by norm_num)]
    exact quantiles.index_of_ceil (by norm_num [Int.ceil_eq_iff])
  · have hr : Fval.round32 ((3 / 4 : ℚ) * ((5592407 : Nat) : ℚ)) = Fval.fin 4194305 := by
      have hk : Fval.rne ((3 / 4 : ℚ) * ((5592407 : Nat) : ℚ) / 2 ^ ((22 : Int) - 23)) =
          8388610 :=
        Fval.rne_tie_even (by norm_num) (by norm_num)
      rw [Fval.round32_fin_of_pos (E := 22) (k := 8388610) (by norm_num) (by norm_num)
        (by norm_num) (by norm_num) hk (by norm_num) (by norm_num)]
      norm_num
    rw [quantiles.index_f32_eq _ 5592407 (by norm_num), hr, Fval.to_size_t_ceil]
    norm_num
    rfl

/-- The binary32 loop on three probabilities whose indices are in range. -/
theorem quantiles.loop_f32_three (l : List ℚ) (N : Nat) (p1 p2 p3 : ℚ) (k1 k2 k3 : Nat)
    (x y z : ℚ) (i1 : quantiles.index_f32 p1 N = Except.ok k1)
    (i2 : quantiles.index_f32 p2 N = Except.ok k2)
    (i3 : quantiles.index_f32 p3 N = Except.ok k3)
    (a1 : quantiles.at l k1 = Except.ok x) (a2 : quantiles.at l k2 = Except.ok y)
    (a3 : quantiles.at l k3 = Except.ok z) :
    quantiles.loop_f32 l N [p1, p2, p3] [] = Except.ok [x, y, z] := by
  rw [quantiles.loop_f32, i1]
  dsimp only
  rw [a1]
  dsimp only
  rw [quantiles.loop_f32, i2]
  dsimp only
  rw [a2]
  dsimp only
  rw [quantiles.loop_f32, i3]
  dsimp only
  rw [a3]
  rfl

theorem quantiles.at_getD (l : List ℚ) (k : Nat) (h : k < l.length) :
    quantiles.at l k = Except.ok (l.getD k 0) := by
  simp [quantiles.at, List.getElem?_eq_getElem h, List.getD_eq_getElem?_getD]

/-- The method `compute_quartiles` in binary32, once the three indices are
known and in range. -/
theorem compute_quartiles_f32_of_indices (r : statRecord) (k1 k2 k3 : Nat)
    (hN : 2 ≤ r.elements.length)
    (i1 : quantiles.index_f32 (1 / 4) r.elements.length = Except.ok k1)
    (i2 : quantiles.index_f32 (1 / 2) r.elements.length = Except.ok k2)
    (i3 : quantiles.index_f32 (3 / 4) r.elements.length = Except.ok k3)
    (h1 : k1 < r.elements.length) (h2 : k2 < r.elements.length) (h3 : k3 < r.elements.length) :
    r.compute_quartiles_f32 = Except.ok
      { r with
        elements := r.elements.insertionSort (· ≤ ·)
        q1 := (r.elements.insertionSort (· ≤ ·)).getD k1 0
        median := (r.elements.insertionSort (· ≤ ·)).getD k2 0
        q3 := (r.elements.insertionSort (· ≤ ·)).getD k3 0 } := by
  have hl : (r.elements.insertionSort (· ≤ ·)).length = r.elements.length :=
    List.length_insertionSort _ _
  have hq : quantiles_f32 (r.elements.insertionSort (· ≤ ·)) [1 / 4, 1 / 2, 3 / 4] =
      Except.ok [(r.elements.insertionSort (· ≤ ·)).getD k1 0,
        (r.elements.insertionSort (· ≤ ·)).getD k2 0,
        (r.elements.insertionSort (· ≤ ·)).getD k3 0] := by
    rw [quantiles_f32_eq_loop _ _ (by omega), hl]
    exact quantiles.loop_f32_three _ _ _ _ _ k1 k2 k3 _ _ _ i1 i2 i3
      (quantiles.at_getD _ _ (by omega)) (quantiles.at_getD _ _ (by omega))
      (quantiles.at_getD _ _ (by omega))
  simp only [statRecord.compute_quartiles_f32, hq]
  rfl

/-- With 5592407 elements in the sample buffer `compute_quartiles` returns,
with the third quartile read at index 4194305 of the sorted sample. -/
theorem compute_quartiles_f32_5592407 (r : statRecord) (h : r.elements.length = 5592407) :
    r.compute_quartiles_f32 = Except.ok
      { r with
        elements := r.elements.insertionSort (· ≤ ·)
        q1 := (r.elements.insertionSort (· ≤ ·)).getD 1398102 0
        median := (r.elements.insertionSort (· ≤ ·)).getD 2796204 0
        q3 := (r.elements.insertionSort (· ≤ ·)).getD 4194305 0 } := by
  obtain ⟨i1, i2, i3⟩ := quartile_index_f32_5592407
  rw [← h] at i1 i2 i3
  exact compute_quartiles_f32_of_indices r 1398102 2796204 4194305 (by omega) i1 i2 i3
    (by omega) (by omega) (by omega)

/-! ## The claims -/

/-- C1. Ingesting any finite sequence `xs` value by value with `process_val`
into a freshly constructed record (either constructor) leaves `count` equal to
the length of `xs`, `total` equal to the sum of `xs` and `total_squared` equal
to the sum of the squares of `xs`. -/
theorem C1_ingest_count_total_total_squared (xs : List ℚ) :
    (∀ qs : Bool,
      (ingest (statRecord.ctor_qs qs) xs).count = (xs.length : Int) ∧
      (ingest (statRecord.ctor_qs qs) xs).total = xs.sum ∧
      (ingest (statRecord.ctor_qs qs) xs).total_squared = (xs.map (fun x => x ^ 2)).sum) ∧
    (ingest statRecord.ctor xs).count = (xs.length : Int) ∧
    (ingest statRecord.ctor xs).total = xs.sum ∧
    (ingest statRecord.ctor xs).total_squared = (xs.map (fun x => x ^ 2)).sum := by
  refine ⟨fun qs => ⟨?_, ?_, ?_⟩, ?_, ?_, ?_⟩ <;>
    simp [ingest_count, ingest_total, ingest_total_squared, statRecord.ctor_qs, statRecord.ctor]

/-- C2. The claim that `min` ends as the smallest ingested value fails on the
code: after the stream `-5, 3` (either constructor) `min` is `3`, although
`-5` was ingested.  The test `min < 0` that stands for "no value seen yet"
also fires when the current minimum is a negative value. -/
theorem C2_min_after_negative_value :
    (ingest statRecord.ctor [-5, 3]).min = 3 ∧
    (∀ qs : Bool, (ingest (statRecord.ctor_qs qs) [-5, 3]).min = 3) ∧
    (∃ x ∈ [(-5 : ℚ), 3], x < (ingest statRecord.ctor [-5, 3]).min) := by
  refine ⟨by decide, fun qs => by cases qs <;> decide, -5, by simp, by decide⟩

/-- C3. The claim that `max` ends as the largest ingested value fails on the
code: after the one-value stream `-5` (either constructor) `max` is still the
initial `0`, which is not a value of the stream. -/
theorem C3_max_after_negative_value :
    (ingest statRecord.ctor [-5]).max = 0 ∧
    (∀ qs : Bool, (ingest (statRecord.ctor_qs qs) [-5]).max = 0) ∧
    (0 : ℚ) ∉ [(-5 : ℚ)] := by
  refine ⟨by decide, fun qs => by cases qs <;> decide, by decide⟩

/-- C4. For a non-empty sequence `xs` ingested into a fresh record and
finalized with `compute_mean` and `compute_variance`, `mean` is the sum of
`xs` over its length and `variance` is the sum of the squares over the length
minus the square of the mean. -/
theorem C4_mean_variance (qs : Bool) (xs : List ℚ) (h : xs ≠ []) :
    (finalize (ingest (statRecord.ctor_qs qs) xs)).mean =
      some (xs.sum / (xs.length : ℚ)) ∧
    (finalize (ingest (statRecord.ctor_qs qs) xs)).variance =
      some ((xs.map (fun x => x ^ 2)).sum / (xs.length : ℚ) - (xs.sum / (xs.length : ℚ)) ^ 2) :=
  finalize_ingest_fresh qs xs h

theorem C4_mean_variance_witness :
    ([1, 2, 3] : List ℚ) ≠ [] ∧
    (finalize (ingest (statRecord.ctor_qs false) [1, 2, 3])).mean =
      some (([1, 2, 3] : List ℚ).sum / (([1, 2, 3] : List ℚ).length : ℚ)) :=
  ⟨by decide, (C4_mean_variance false [1, 2, 3] (by decide)).1⟩

/-- C5. The claim `min <= mean <= max` fails on the code: after the stream
`-5, 3` the finalized record has `mean = -1` and `min = 3`, so `min <= mean`
does not hold. -/
theorem C5_min_above_mean :
    (finalize (ingest (statRecord.ctor_qs false) [-5, 3])).mean = some (-1) ∧
    (finalize (ingest (statRecord.ctor_qs false) [-5, 3])).min = 3 ∧
    (finalize (ingest (statRecord.ctor_qs false) [-5, 3])).max = 3 ∧
    ¬ ((3 : ℚ) ≤ -1) := by
  refine ⟨?_, by decide, by decide, by decide⟩
  rw [(finalize_ingest_fresh false [-5, 3] (by decide)).1]
  norm_num

/-- C6. For a non-empty sequence ingested into a fresh record and finalized,
the variance `total_squared / count - mean ^ 2` is a finite value, it is the
mean of the squared deviations from the mean, and it is non-negative. -/
theorem C6_variance_nonneg (qs : Bool) (xs : List ℚ) (h : xs ≠ []) :
    ∃ v : ℚ, (finalize (ingest (statRecord.ctor_qs qs) xs)).variance = some v ∧
      v = (xs.map (fun x => (x - xs.sum / (xs.length : ℚ)) ^ 2)).sum / (xs.length : ℚ) ∧
      0 ≤ v := by
  have hn : (xs.length : ℚ) ≠ 0 := by
    simpa using h
  have hv := (finalize_ingest_fresh qs xs h).2
  have he : (xs.map (fun x => x ^ 2)).sum / (xs.length : ℚ) - (xs.sum / (xs.length : ℚ)) ^ 2 =
      (xs.map (fun x => (x - xs.sum / (xs.length : ℚ)) ^ 2)).sum / (xs.length : ℚ) := by
    rw [sum_sq_dev]
    field_simp
    ring
  refine ⟨_, hv, he, ?_⟩
  rw [he]
  exact div_nonneg (sum_sq_dev_nonneg _ _) (Nat.cast_nonneg _)

theorem C6_variance_nonneg_witness :
    ([1, 2, 3] : List ℚ) ≠ [] ∧
    ∃ v : ℚ, (finalize (ingest (statRecord.ctor_qs false) [1, 2, 3])).variance = some v ∧
      v = (([1, 2, 3] : List ℚ).map
        (fun x => (x - ([1, 2, 3] : List ℚ).sum / (([1, 2, 3] : List ℚ).length : ℚ)) ^ 2)).sum /
          (([1, 2, 3] : List ℚ).length : ℚ) ∧
      0 ≤ v :=
  ⟨by decide, C6_variance_nonneg false [1, 2, 3] (by decide)⟩

/-- C7 (as stated, refuted). On the empty stream nothing signals an error:
`main` without arguments returns exit status 0 after printing a record whose
`mean`, `variance` and `stdev` are the non-finite results of dividing by
`count = 0`. -/
theorem C7_empty_stream_no_error :
    main [] [] = Outcome.exit 0 (some (false, finalize (statRecord.ctor_qs false))) ∧
    (finalize (statRecord.ctor_qs false)).mean = none ∧
    (finalize (statRecord.ctor_qs false)).variance = none ∧
    (finalize (statRecord.ctor_qs false)).stdev = Root.nonfinite ∧
    ¬ (∃ e, main [] [] = Outcome.fault e) := by
  refine ⟨by decide, by decide, by decide, by decide, ?_⟩
  rintro ⟨e, he⟩
  have h0 : main [] [] = Outcome.exit 0 (some (false, finalize (statRecord.ctor_qs false))) := by
    decide
  rw [h0] at he
  exact Outcome.noConfusion he

/-- C7 (amended). When no value has been ingested (`count = 0`),
`compute_mean` and `compute_variance` raise no error: they return the record
with `mean`, `variance` and `stdev` set to the non-finite result of the
division by zero (NaN on a fresh record) and every other field unchanged.
When quartiles are not requested, `main` on the empty stream then prints that
record and returns exit status 0. -/
theorem C7_finalize_count_zero (r : statRecord) (h : r.count = 0) :
    finalize r = { r with mean := none, variance := none, stdev := Root.nonfinite } ∧
    (∀ (args : List String) (o : Options), args.length ≤ 2 →
      parse_args args ⟨false, false, false⟩ = Except.ok o → o.compute_quartiles = false →
      main args [] = Outcome.exit 0 (some (o.print_json, finalize (statRecord.ctor_qs false)))) := by
  constructor
  · simp [finalize, statRecord.compute_mean, statRecord.compute_variance,
      statRecord.variance_value, statRecord.sqrt_value, h, fdiv_zero]
  · intro args o hl hp hq
    have hl2 : ¬ (args.length + 1 > 3) := by omega
    simp [main, hl2, hp, hq, read_loop, finalize]

theorem C7_finalize_count_zero_witness :
    (statRecord.ctor_qs false).count = 0 ∧
    finalize (statRecord.ctor_qs false) =
      { statRecord.ctor_qs false with
        mean := none, variance := none, stdev := Root.nonfinite } ∧
    main ["-j"] [] = Outcome.exit 0 (some (true, finalize (statRecord.ctor_qs false))) :=
  ⟨rfl, (C7_finalize_count_zero (statRecord.ctor_qs false) rfl).1,
    (C7_finalize_count_zero (statRecord.ctor_qs false) rfl).2 ["-j"] ⟨false, true, false⟩
      (by decide) rfl rfl⟩

/-- C8 (as stated, refuted). The entry is not always the element at index
`ceil(p * N)`: for the five elements `10, 20, 30, 40, 50` and `p = 0.2f` (the
binary32 value 13421773/67108864) the hypotheses of the claim hold with
`ceil(p * N) = 2`, but the binary32 product rounds to 1.0 and `quantiles`
returns the element at index 1, which is 20 and not 30. -/
theorem C8_rounded_product_index :
    2 ≤ ([10, 20, 30, 40, 50] : List ℚ).length ∧
    Fval.round32 (13421773 / 67108864) = Fval.fin (13421773 / 67108864) ∧
    ⌈(13421773 / 67108864 : ℚ) * (([10, 20, 30, 40, 50] : List ℚ).length : ℚ)⌉ = 2 ∧
    ([10, 20, 30, 40, 50] : List ℚ)[2]? = some 30 ∧
    quantiles_f32 [10, 20, 30, 40, 50] [13421773 / 67108864] = Except.ok [20] := by
  refine ⟨by decide, ?_, ?_, rfl, ?_⟩
  · have h := Fval.round32_of_representable 13421773 (-26) (by norm_num) (by norm_num)
      (by norm_num)
    have e : ((13421773 : Int) : ℚ) * 2 ^ (-26 : Int) = 13421773 / 67108864 := by norm_num
    rw [e] at h
    exact h
  · simp only [List.length_cons, List.length_nil]
    norm_num [Int.ceil_eq_iff]
  · have e : quantiles_f32 [10, 20, 30, 40, 50] [13421773 / 67108864] =
        quantiles.loop_f32 [10, 20, 30, 40, 50] 5 [13421773 / 67108864] [] := rfl
    rw [e, quantiles.loop_f32, quantiles.index_f32_fifth]
    rfl

/-- C8 (amended). For data with `N >= 2` elements (sorted or not) and
probabilities whose index as the code computes it, the ceiling of the
binary32 product of `p` and `N`, lies in `0 .. N-1`, `quantiles` returns a
list with one entry per probability, the `i`-th entry being the element of
`data` at that index.  The index is `ceil(p * N)` wherever `N < 2^24` and the
product `p * N` is a binary32 value (no rounding), as it is in the example:
`quantiles [1,2,3,4] [0.25, 0.5, 0.75]` is `[2, 3, 4]`. -/
theorem C8_quantiles_f32_nearest_rank (data ps : List ℚ) (hN : 2 ≤ data.length)
    (hidx : ∀ p ∈ ps, ∃ c : Nat,
      quantiles.index_f32 p data.length = Except.ok c ∧ c ≤ data.length - 1) :
    (∃ res : List ℚ, quantiles_f32 data ps = Except.ok res ∧ res.length = ps.length ∧
      ∀ (i : Nat) (p : ℚ), ps[i]? = some p →
        ∃ (c : Nat) (v : ℚ), quantiles.index_f32 p data.length = Except.ok c ∧
          data[c]? = some v ∧ res[i]? = some v) ∧
    (∀ p ∈ ps, ∀ m e : Int, data.length < 2 ^ 24 →
      p * (data.length : ℚ) = (m : ℚ) * 2 ^ e → |m| < 2 ^ 24 → -149 ≤ e → e ≤ 104 →
      p * (data.length : ℚ) ≤ 2 ^ 63 →
      0 ≤ ⌈p * (data.length : ℚ)⌉ ∧
      quantiles.index_f32 p data.length = Except.ok ⌈p * (data.length : ℚ)⌉.toNat) ∧
    quantiles_f32 [1, 2, 3, 4] [1 / 4, 1 / 2, 3 / 4] = Except.ok [2, 3, 4] := by
  have hrange : ∀ p ∈ ps,
      quantiles.index_f32 p data.length =
        Except.ok (match quantiles.index_f32 p data.length with
          | Except.ok k => k
          | Except.error _ => 0) ∧
      (match quantiles.index_f32 p data.length with
        | Except.ok k => k
        | Except.error _ => 0) < data.length := by
    intro p hp
    obtain ⟨c, hc, hlt⟩ := hidx p hp
    rw [quantiles.index_f32_choice _ _ _ hc]
    exact ⟨hc, by omega⟩
  refine ⟨⟨_, by rw [quantiles_f32_eq_loop data ps hN,
    quantiles.loop_f32_ok data data.length ps [] _ hrange], by simp, ?_⟩, ?_, ?_⟩
  · intro i p hp
    have hpm : p ∈ ps := List.getElem?_mem hp
    obtain ⟨c, hc, hlt⟩ := hidx p hpm
    have hcl : c < data.length := by omega
    refine ⟨c, data.getD c 0, hc, ?_, ?_⟩
    · rw [List.getElem?_eq_getElem hcl, List.getD_eq_getElem?_getD,
        List.getElem?_eq_getElem hcl]
      rfl
    · simp [List.getElem?_map, hp, quantiles.index_f32_choice _ _ _ hc]
  · intro p hp m e h24 hrep hm he1 he2 hlt
    obtain ⟨c, hc, -⟩ := hidx p hp
    rw [quantiles.index_f32_eq_index p data.length h24 m e hrep hm he1 he2 hlt] at hc ⊢
    by_cases h0 : ⌈p * (data.length : ℚ)⌉ < 0
    · simp [quantiles.index, h0] at hc
    · exact ⟨not_lt.1 h0, by simp [quantiles.index, h0]⟩
  · have h4 : ∀ p ∈ ([1 / 4, 1 / 2, 3 / 4] : List ℚ),
        quantiles.index_f32 p ([1, 2, 3, 4] : List ℚ).length =
          quantiles.index p ([1, 2, 3, 4] : List ℚ).length :=
      quartile_index_f32_eq 4 (by norm_num)
    exact (quantiles_f32_congr [1, 2, 3, 4] [1 / 4, 1 / 2, 3 / 4] h4).trans quantiles_example

theorem C8_quantiles_f32_nearest_rank_witness :
    2 ≤ ([10, 20, 30, 40, 50] : List ℚ).length ∧
    (∀ p ∈ ([13421773 / 67108864, 1 / 2] : List ℚ), ∃ c : Nat,
      quantiles.index_f32 p ([10, 20, 30, 40, 50] : List ℚ).length = Except.ok c ∧
        c ≤ ([10, 20, 30, 40, 50] : List ℚ).length - 1) ∧
    ∃ res : List ℚ,
      quantiles_f32 [10, 20, 30, 40, 50] [13421773 / 67108864, 1 / 2] = Except.ok res ∧
      res.length = ([13421773 / 67108864, 1 / 2] : List ℚ).length ∧
      ∀ (i : Nat) (p : ℚ), ([13421773 / 67108864, 1 / 2] : List ℚ)[i]? = some p →
        ∃ (c : Nat) (v : ℚ),
          quantiles.index_f32 p ([10, 20, 30, 40, 50] : List ℚ).length = Except.ok c ∧
          ([10, 20, 30, 40, 50] : List ℚ)[c]? = some v ∧ res[i]? = some v :=
  have hidx : ∀ p ∈ ([13421773 / 67108864, 1 / 2] : List ℚ), ∃ c : Nat,
      quantiles.index_f32 p ([10, 20, 30, 40, 50] : List ℚ).length = Except.ok c ∧
        c ≤ ([10, 20, 30, 40, 50] : List ℚ).length - 1 := by
    intro p hp
    simp only [List.mem_cons, List.mem_singleton, List.not_mem_nil, or_false] at hp
    rcases hp with rfl | rfl
    · exact ⟨1, quantiles.index_f32_fifth, by decide⟩
    · exact ⟨3, quantiles.index_f32_half_five, by decide⟩
  ⟨by decide, hidx,
    (C8_quantiles_f32_nearest_rank [10, 20, 30, 40, 50] [13421773 / 67108864, 1 / 2]
      (by decide) hidx).1⟩

/-- C9. The claim that the index is clamped to `N-1` fails on the code: for
`p = 1` and two elements the index `ceil(1 * 2) = 2` is passed to `at`
unchanged and `std::out_of_range` is thrown.  The program itself gets there:
with `-q` and the stream `1, 2` the index for `0.75` is `ceil(1.5) = 2`. -/
theorem C9_index_not_clamped :
    quantiles.index 1 2 = Except.ok 2 ∧
    quantiles [1, 2] [1] = Except.error Fault.out_of_range ∧
    (ingest (statRecord.ctor_qs true) [1, 2]).compute_quartiles =
      Except.error Fault.out_of_range ∧
    main ["-q"] [some 1, some 2] = Outcome.fault Fault.out_of_range := by
  have h : quantiles.index 1 2 = Except.ok 2 := quantiles.index_of_ceil (by norm_num)
  have h1 : quantiles.index (1 / 4) 2 = Except.ok 1 :=
    quantiles.index_of_ceil (by norm_num [Int.ceil_eq_iff])
  have h2 : quantiles.index (1 / 2) 2 = Except.ok 1 := quantiles.index_of_ceil (by norm_num)
  have h3 : quantiles.index (3 / 4) 2 = Except.ok 2 :=
    quantiles.index_of_ceil (by norm_num [Int.ceil_eq_iff])
  have e : quantiles [1, 2] [1] = quantiles.loop [1, 2] 2 [1] [] := rfl
  have e3 : quantiles [1, 2] [1 / 4, 1 / 2, 3 / 4] = Except.error Fault.out_of_range := by
    have e2 : quantiles [1, 2] [1 / 4, 1 / 2, 3 / 4] =
        quantiles.loop [1, 2] 2 [1 / 4, 1 / 2, 3 / 4] [] := rfl
    rw [e2]
    simp only [quantiles.at, quantiles.loop, h1, h2, h3]
    rfl
  have hs : (ingest (statRecord.ctor_qs true) [1, 2]).elements.insertionSort (· ≤ ·) = [1, 2] := by
    decide
  have hs2 : (finalize (ingest (statRecord.ctor_qs true) [1, 2])).elements.insertionSort
      (· ≤ ·) = [1, 2] := by
    decide
  have hc : (ingest (statRecord.ctor_qs true) [1, 2]).compute_quartiles =
      Except.error Fault.out_of_range := by
    simp only [statRecord.compute_quartiles, hs, e3]
  have hc2 : (finalize (ingest (statRecord.ctor_qs true) [1, 2])).compute_quartiles =
      Except.error Fault.out_of_range := by
    simp only [statRecord.compute_quartiles, hs2, e3]
  have hm : main ["-q"] [some 1, some 2] =
      match (finalize (ingest (statRecord.ctor_qs true) [1, 2])).compute_quartiles with
      | Except.error e => Outcome.fault e
      | Except.ok record => Outcome.exit 0 (some (false, record)) := rfl
  refine ⟨h, ?_, hc, ?_⟩
  · rw [e, quantiles.loop, h]; rfl
  · rw [hm, hc2]

/-- C10. The claim of one entry per probability fails on the code: for the
one-element data `[5]` and the three quartile probabilities `quantiles`
returns the one-entry list `[5]`, so that `compute_quartiles` reads
`quartiles[1]` and `quartiles[2]` past its end (undefined behaviour) instead of
setting `q1 = median = q3 = 5`. -/
theorem C10_single_element_one_entry :
    quantiles [5] [1 / 4, 1 / 2, 3 / 4] = Except.ok [5] ∧
    (ingest (statRecord.ctor_qs true) [5]).compute_quartiles = Except.error Fault.undefined ∧
    main ["-q"] [some 5] = Outcome.fault Fault.undefined := by
  exact ⟨rfl, rfl, by decide⟩

/-- C11 (as stated, refuted). A probability outside `[0, 1]` is not rejected:
for the data `[1, 2]` and `p = -0.1f` (the binary32 value
-13421773/134217728) the product is -0.2, its ceiling is 0 and `quantiles`
returns the element `1`; for the one-element data `[7]` and `p = 2` it
returns `7`. -/
theorem C11_probability_not_rejected :
    quantiles_f32 [1, 2] [-13421773 / 134217728] = Except.ok [1] ∧
    quantiles_f32 [7] [2] = Except.ok [7] ∧
    ¬ ((0 : ℚ) ≤ -13421773 / 134217728) ∧ ¬ ((2 : ℚ) ≤ 1) := by
  have h : quantiles.index_f32 (-13421773 / 134217728) 2 = Except.ok 0 := by
    rw [quantiles.index_f32_eq_index (-13421773 / 134217728) 2 (by norm_num) (-13421773) (-26)
      (by norm_num) (by norm_num) (by norm_num) (by norm_num) (by norm_num)]
    exact quantiles.index_of_ceil (by norm_num [Int.ceil_eq_iff])
  have e : quantiles_f32 [1, 2] [-13421773 / 134217728] =
      quantiles.loop_f32 [1, 2] 2 [-13421773 / 134217728] [] := rfl
  refine ⟨?_, rfl, by norm_num, by norm_num⟩
  rw [e, quantiles.loop_f32, h]
  rfl

/-- C11 (amended). `quantiles` does not check its probabilities.  For data
with `2 <= N < 2^24` elements a probability `p > 1` never gets an index inside
the data, so that every request containing it returns no value: where the
ceiling of the binary32 product of `p` and `N` is below `2^64` the call throws
`std::out_of_range`, and otherwise the conversion to `size_t` is undefined.
A probability `p < 0` whose binary32 product with `N` is above `-1` is not
rejected: the index is `0` and the first element of `data` is returned. -/
theorem C11_quantiles_f32_probability_outside (data : List ℚ) (p : ℚ)
    (hN : 2 ≤ data.length) (hN24 : data.length < 2 ^ 24) :
    (1 < p →
      (∀ ps : List ℚ, p ∈ ps → ∃ e, quantiles_f32 data ps = Except.error e) ∧
      (∀ y : ℚ, Fval.round32 (p * (data.length : ℚ)) = Fval.fin y → ⌈y⌉ < 2 ^ 64 →
        quantiles_f32 data [p] = Except.error Fault.out_of_range) ∧
      (∀ y : ℚ, Fval.round32 (p * (data.length : ℚ)) = Fval.fin y → 2 ^ 64 ≤ ⌈y⌉ →
        quantiles_f32 data [p] = Except.error Fault.undefined) ∧
      (Fval.round32 (p * (data.length : ℚ)) = Fval.pinf →
        quantiles_f32 data [p] = Except.error Fault.undefined)) ∧
    (p < 0 → ∀ y : ℚ, Fval.round32 (p * (data.length : ℚ)) = Fval.fin y → -1 < y →
      ∃ v : ℚ, data[0]? = some v ∧ quantiles_f32 data [p] = Except.ok [v]) := by
  have hNpos : (0 : ℚ) < (data.length : ℚ) := by
    have : 0 < data.length := by omega
    exact_mod_cast this
  have hloop : quantiles_f32 data [p] = quantiles.loop_f32 data data.length [p] [] :=
    quantiles_f32_eq_loop data [p] hN
  have hidx := quantiles.index_f32_eq p data.length hN24
  constructor
  · intro hp
    have hbad := quantiles.index_f32_above_one p data.length (by omega) hN24 hp
    have hx : (data.length : ℚ) ≤ p * (data.length : ℚ) := by nlinarith
    refine ⟨?_, ?_, ?_, ?_⟩
    · intro ps hmem
      rw [quantiles_f32_eq_loop data ps hN]
      exact quantiles.loop_f32_error_of_mem data data.length ps [] p hmem hbad
    · intro y hy hlt
      have hge : (data.length : Int) ≤ ⌈y⌉ := by
        rcases Fval.round32_ge_nat data.length (by omega) (le_of_lt hN24) _ hx with h | ⟨z, h, hz⟩
        · rw [hy] at h; exact Fval.noConfusion h
        · rw [hy] at h
          have hyz : y = z := by injection h
          have : ((data.length : Int) : ℚ) ≤ y := by rw [hyz]; exact_mod_cast hz
          exact Int.le_ceil_iff.2 (by linarith)
      have hi : quantiles.index_f32 p data.length = Except.ok ⌈y⌉.toNat := by
        rw [hidx, hy, Fval.to_size_t_ceil, if_pos ⟨by omega, hlt⟩]
      have hk : data.length ≤ ⌈y⌉.toNat := by omega
      rw [hloop, quantiles.loop_f32, hi]
      simp [quantiles.at, List.getElem?_eq_none hk]
    · intro y hy hge
      have hi : quantiles.index_f32 p data.length = Except.error Fault.undefined := by
        rw [hidx, hy, Fval.to_size_t_ceil, if_neg (by omega)]
      rw [hloop, quantiles.loop_f32, hi]
    · intro hy
      have hi : quantiles.index_f32 p data.length = Except.error Fault.undefined := by
        rw [hidx, hy]
        rfl
      rw [hloop, quantiles.loop_f32, hi]
  · intro hneg y hy hgt
    have hy0 : y ≤ 0 := by
      rcases Fval.round32_neg _ (mul_neg_of_neg_of_pos hneg hNpos) with h | ⟨z, h, hz⟩
      · rw [hy] at h; exact Fval.noConfusion h
      · rw [hy] at h
        have hyz : y = z := by injection h
        rw [hyz]; exact hz
    have hc : ⌈y⌉ = 0 := by
      rw [Int.ceil_eq_iff]
      constructor
      · simpa using hgt
      · simpa using hy0
    have hi : quantiles.index_f32 p data.length = Except.ok 0 := by
      rw [hidx, hy, Fval.to_size_t_ceil, hc]
      rfl
    match data, hN with
    | a :: b :: rest, _ =>
      refine ⟨a, rfl, ?_⟩
      rw [quantiles_f32_eq_loop (a :: b :: rest) [p] (by simp), quantiles.loop_f32, hi]
      rfl

theorem C11_quantiles_f32_probability_outside_witness :
    2 ≤ ([1, 2, 3] : List ℚ).length ∧ ([1, 2, 3] : List ℚ).length < 2 ^ 24 ∧
    ((1 : ℚ) < 3 / 2 ∧
      Fval.round32 ((3 / 2 : ℚ) * (([1, 2, 3] : List ℚ).length : ℚ)) = Fval.fin (9 / 2) ∧
      ⌈(9 / 2 : ℚ)⌉ < 2 ^ 64 ∧
      quantiles_f32 [1, 2, 3] [3 / 2] = Except.error Fault.out_of_range) ∧
    ((-1 / 8 : ℚ) < 0 ∧
      Fval.round32 ((-1 / 8 : ℚ) * (([1, 2, 3] : List ℚ).length : ℚ)) = Fval.fin (-3 / 8) ∧
      (-1 : ℚ) < -3 / 8 ∧
      ∃ v : ℚ, ([1, 2, 3] : List ℚ)[0]? = some v ∧
        quantiles_f32 [1, 2, 3] [-1 / 8] = Except.ok [v]) :=
  have hr : Fval.round32 ((3 / 2 : ℚ) * (([1, 2, 3] : List ℚ).length : ℚ)) =
      Fval.fin (9 / 2) := by
    have h := Fval.round32_of_representable 9 (-1) (by norm_num) (by norm_num) (by norm_num)
    have e : ((9 : Int) : ℚ) * 2 ^ (-1 : Int) = 9 / 2 := by norm_num
    have e2 : (3 / 2 : ℚ) * (([1, 2, 3] : List ℚ).length : ℚ) = 9 / 2 := by
      simp only [List.length_cons, List.length_nil]
      norm_num
    rw [e2, ← e]
    exact h
  have hc : ⌈(9 / 2 : ℚ)⌉ < 2 ^ 64 := by
    rw [show ⌈(9 / 2 : ℚ)⌉ = 5 by norm_num [Int.ceil_eq_iff]]
    norm_num
  have hn : Fval.round32 ((-1 / 8 : ℚ) * (([1, 2, 3] : List ℚ).length : ℚ)) =
      Fval.fin (-3 / 8) := by
    have h := Fval.round32_of_representable (-3) (-3) (by norm_num) (by norm_num) (by norm_num)
    have e : ((-3 : Int) : ℚ) * 2 ^ (-3 : Int) = -3 / 8 := by norm_num
    have e2 : (-1 / 8 : ℚ) * (([1, 2, 3] : List ℚ).length : ℚ) = -3 / 8 := by
      simp only [List.length_cons, List.length_nil]
      norm_num
    rw [e2, ← e]
    exact h
  ⟨by decide, by simp,
    ⟨by norm_num, hr, hc,
      ((C11_quantiles_f32_probability_outside [1, 2, 3] (3 / 2) (by decide) (by simp)).1
        (by norm_num)).2.1 (9 / 2) hr hc⟩,
    ⟨by norm_num, hn, by norm_num,
      (C11_quantiles_f32_probability_outside [1, 2, 3] (-1 / 8) (by decide) (by simp)).2
        (by norm_num) (-3 / 8) hn (by norm_num)⟩⟩

/-- C12. The claim of order-independence fails on the code for `min`: the
stream `-5, 3` ends with `min = 3` and its permutation `3, -5` ends with
`min = -5`. -/
theorem C12_min_depends_on_order :
    List.Perm [(-5 : ℚ), 3] [3, -5] ∧
    (finalize (ingest (statRecord.ctor_qs false) [-5, 3])).min = 3 ∧
    (finalize (ingest (statRecord.ctor_qs false) [3, -5])).min = -5 ∧
    (finalize (ingest (statRecord.ctor_qs false) [-5, 3])).min ≠
      (finalize (ingest (statRecord.ctor_qs false) [3, -5])).min := by
  refine ⟨List.Perm.swap _ _ _, by decide, by decide, by decide⟩

/-- C13 (as stated, refuted). The values are arbitrary floats, and NaN is
one of them (`std::stof` converts the line `nan`): after the one-value stream
NaN, `min` is NaN and `max` is still 0, and `min <= max` is false. -/
theorem C13_nan_breaks_min_le_max :
    (ingest32 statRecord32.ctor [Fval.nan]).min = Fval.nan ∧
    (ingest32 statRecord32.ctor [Fval.nan]).max = Fval.fin 0 ∧
    Fval.le (ingest32 statRecord32.ctor [Fval.nan]).min
      (ingest32 statRecord32.ctor [Fval.nan]).max = false := by
  exact ⟨rfl, rfl, rfl⟩

/-- C13 (amended). For values that are not NaN (negative values and the
infinities included): once at least one value has been ingested into a fresh
record, `min <= max` holds, and it holds again after any further such
values.  (The initial values `-1` and `0` satisfy it as well, and every step
of `process_val` keeps it.) -/
theorem C13_min_le_max_without_nan (xs ys : List Fval) (hx : ∀ v ∈ xs, v ≠ Fval.nan)
    (hy : ∀ v ∈ ys, v ≠ Fval.nan) :
    Fval.le (ingest32 statRecord32.ctor xs).min (ingest32 statRecord32.ctor xs).max = true ∧
    Fval.le (ingest32 (ingest32 statRecord32.ctor xs) ys).min
      (ingest32 (ingest32 statRecord32.ctor xs) ys).max = true := by
  have h0 : Fval.le statRecord32.ctor.min statRecord32.ctor.max = true := by
    simp [statRecord32.ctor, Fval.le]
  have h1 := ingest32_le statRecord32.ctor xs hx h0
  exact ⟨h1, ingest32_le _ ys hy h1⟩

theorem C13_min_le_max_without_nan_witness :
    (∀ v ∈ [Fval.fin (-5), Fval.pinf], v ≠ Fval.nan) ∧
    (∀ v ∈ [Fval.ninf, Fval.fin 3], v ≠ Fval.nan) ∧
    Fval.le (ingest32 statRecord32.ctor [Fval.fin (-5), Fval.pinf]).min
      (ingest32 statRecord32.ctor [Fval.fin (-5), Fval.pinf]).max = true ∧
    Fval.le (ingest32 (ingest32 statRecord32.ctor [Fval.fin (-5), Fval.pinf])
        [Fval.ninf, Fval.fin 3]).min
      (ingest32 (ingest32 statRecord32.ctor [Fval.fin (-5), Fval.pinf])
        [Fval.ninf, Fval.fin 3]).max = true :=
  have hx : ∀ v ∈ [Fval.fin (-5), Fval.pinf], v ≠ Fval.nan := by
    intro v hv
    simp only [List.mem_cons, List.mem_singleton, List.not_mem_nil, or_false] at hv
    rcases hv with rfl | rfl <;> exact Fval.noConfusion
  have hy : ∀ v ∈ [Fval.ninf, Fval.fin 3], v ≠ Fval.nan := by
    intro v hv
    simp only [List.mem_cons, List.mem_singleton, List.not_mem_nil, or_false] at hv
    rcases hv with rfl | rfl <;> exact Fval.noConfusion
  ⟨hx, hy, C13_min_le_max_without_nan [Fval.fin (-5), Fval.pinf] [Fval.ninf, Fval.fin 3] hx hy⟩

/-- C14 (as stated, refuted). An argument list with an unknown flag can end
with exit status 0: in `-h --bogus` the help switch comes first and `main`
returns 0 before it looks at `--bogus`. -/
theorem C14_help_before_unknown_flag :
    main ["-h", "--bogus"] [some 1, some 2] = Outcome.exit 0 none ∧
    ¬ help_flag "--bogus" ∧ ¬ switch_flag "--bogus" := by
  refine ⟨by decide, by decide, by decide⟩

/-- C14 (amended). For every argument list with more than two flags, and for
every argument list whose first flag other than `-q`, `--quartiles`, `-j`,
`--json`, `-s`, `--skip-header` is an unknown flag, `main` returns exit status 1 and
processes no input (nothing is read or printed, whatever the input).  When the
first such flag is `-h` or `--help` and there are at most two flags, `main` returns
exit status 0 and processes no input, also if an unknown flag follows. -/
theorem C14_usage_exit_status (args : List String) (lines : List (Option ℚ)) :
    (2 < args.length → main args lines = Outcome.exit 1 none) ∧
    (∀ (pre post : List String) (u : String), args = pre ++ u :: post →
      (∀ a ∈ pre, switch_flag a) → ¬ help_flag u → ¬ switch_flag u →
      main args lines = Outcome.exit 1 none) ∧
    (∀ (pre post : List String) (u : String), args = pre ++ u :: post →
      args.length ≤ 2 → (∀ a ∈ pre, switch_flag a) → help_flag u →
      main args lines = Outcome.exit 0 none) := by
  refine ⟨?_, ?_, ?_⟩
  · intro h
    have h3 : args.length + 1 > 3 := by omega
    simp [main, h3]
  · intro pre post u hargs hpre hu1 hu2
    have hp := parse_args_unknown pre post u ⟨false, false, false⟩ hpre hu1 hu2
    rw [← hargs] at hp
    unfold main
    split_ifs
    · rfl
    · rw [hp]
  · intro pre post u hargs hlen hpre hu
    have hp := parse_args_help pre post u ⟨false, false, false⟩ hpre hu
    rw [← hargs] at hp
    have h3 : ¬ (args.length + 1 > 3) := by omega
    unfold main
    rw [if_neg h3, hp]

theorem C14_usage_exit_status_witness :
    (2 < ["-q", "-j", "-s"].length ∧ main ["-q", "-j", "-s"] [some 1] = Outcome.exit 1 none) ∧
    main ["-q", "--bogus"] [some 1] = Outcome.exit 1 none ∧
    main ["-j", "--help"] [some 1] = Outcome.exit 0 none :=
  ⟨⟨by decide, (C14_usage_exit_status ["-q", "-j", "-s"] [some 1]).1 (by decide)⟩,
    (C14_usage_exit_status ["-q", "--bogus"] [some 1]).2.1 ["-q"] [] "--bogus" rfl
      (by decide) (by decide) (by decide),
    (C14_usage_exit_status ["-j", "--help"] [some 1]).2.2 ["-j"] [] "--help" rfl
      (by decide) (by decide) (by decide)⟩

/-- C15. For every stream `xs` ingested into a fresh record: with quartile
tracking the sample buffer `elements` is `xs` in the order of arrival,
without it (either constructor) `elements` stays empty, and `count`, `total`,
`total_squared`, `min` and `max` are the same with both settings. -/
theorem C15_elements_frame (xs : List ℚ) :
    (ingest (statRecord.ctor_qs true) xs).elements = xs ∧
    (ingest (statRecord.ctor_qs false) xs).elements = [] ∧
    (ingest statRecord.ctor xs).elements = [] ∧
    (ingest (statRecord.ctor_qs true) xs).count = (ingest (statRecord.ctor_qs false) xs).count ∧
    (ingest (statRecord.ctor_qs true) xs).total = (ingest (statRecord.ctor_qs false) xs).total ∧
    (ingest (statRecord.ctor_qs true) xs).total_squared =
      (ingest (statRecord.ctor_qs false) xs).total_squared ∧
    (ingest (statRecord.ctor_qs true) xs).min = (ingest (statRecord.ctor_qs false) xs).min ∧
    (ingest (statRecord.ctor_qs true) xs).max = (ingest (statRecord.ctor_qs false) xs).max := by
  refine ⟨?_, ?_, ?_, ?_, ?_, ?_, ?_, ?_⟩
  · rw [ingest_elements]; simp [statRecord.ctor_qs]
  · rw [ingest_elements]; simp [statRecord.ctor_qs]
  · rw [ingest_elements]; simp [statRecord.ctor]
  · rw [ingest_count, ingest_count]; rfl
  · rw [ingest_total, ingest_total]; rfl
  · rw [ingest_total_squared, ingest_total_squared]; rfl
  · exact ingest_min_congr _ _ xs rfl
  · rw [ingest_max, ingest_max]; rfl

/-- C16. `compute_quartiles` completes without an out-of-range access exactly
when the sample buffer holds at least 4 elements.  With 0 or 1 elements the
result of `quantiles` has fewer than 3 entries, so that reading entries 0, 1, 2
goes past its end; with 2 or 3 elements the index `ceil(0.75 * N)` equals `N`
and `at` throws. -/
theorem C16_compute_quartiles_safe_iff (r : statRecord) :
    ((∃ r2, r.compute_quartiles = Except.ok r2) ↔ 4 ≤ r.elements.length) ∧
    (r.elements.length ≤ 1 →
      (∃ res : List ℚ,
        quantiles (r.elements.insertionSort (· ≤ ·)) [1 / 4, 1 / 2, 3 / 4] = Except.ok res ∧
        res.length < 3) ∧
      r.compute_quartiles = Except.error Fault.undefined) ∧
    (r.elements.length = 2 ∨ r.elements.length = 3 →
      ⌈(3 / 4 : ℚ) * (r.elements.length : ℚ)⌉ = (r.elements.length : Int) ∧
      r.compute_quartiles = Except.error Fault.out_of_range) := by
  have hsmall : r.elements.length ≤ 1 →
      (∃ res : List ℚ,
        quantiles (r.elements.insertionSort (· ≤ ·)) [1 / 4, 1 / 2, 3 / 4] = Except.ok res ∧
        res.length < 3) ∧
      r.compute_quartiles = Except.error Fault.undefined := by
    intro h
    rcases Nat.le_one_iff_eq_zero_or_eq_one.1 h with h0 | h1
    · obtain ⟨hq, hc⟩ := compute_quartiles_zero r h0
      exact ⟨⟨[], hq, by decide⟩, hc⟩
    · obtain ⟨⟨d, hq⟩, hc⟩ := compute_quartiles_one r h1
      exact ⟨⟨[d], hq, by simp⟩, hc⟩
  have hmid : r.elements.length = 2 ∨ r.elements.length = 3 →
      ⌈(3 / 4 : ℚ) * (r.elements.length : ℚ)⌉ = (r.elements.length : Int) ∧
      r.compute_quartiles = Except.error Fault.out_of_range := by
    intro h
    refine ⟨?_, compute_quartiles_two_three r h⟩
    rcases h with h | h <;> rw [h] <;> norm_num [Int.ceil_eq_iff]
  refine ⟨⟨?_, fun h => ⟨_, compute_quartiles_ok r h⟩⟩, hsmall, hmid⟩
  rintro ⟨r2, hr2⟩
  by_contra hlt
  have hcases : r.elements.length ≤ 1 ∨ r.elements.length = 2 ∨ r.elements.length = 3 := by
    omega
  rcases hcases with h | h
  · rw [(hsmall h).2] at hr2
    exact Except.noConfusion hr2
  · rw [(hmid h).2] at hr2
    exact Except.noConfusion hr2

theorem C16_compute_quartiles_safe_iff_witness :
    (ingest (statRecord.ctor_qs true) [3, 1, 2]).elements.length = 3 ∧
    (ingest (statRecord.ctor_qs true) [3, 1, 2]).compute_quartiles =
      Except.error Fault.out_of_range ∧
    (ingest (statRecord.ctor_qs true) [5]).elements.length ≤ 1 ∧
    (ingest (statRecord.ctor_qs true) [5]).compute_quartiles = Except.error Fault.undefined :=
  ⟨by decide,
    ((C16_compute_quartiles_safe_iff (ingest (statRecord.ctor_qs true) [3, 1, 2])).2.2
      (Or.inr (by decide))).2,
    by decide,
    ((C16_compute_quartiles_safe_iff (ingest (statRecord.ctor_qs true) [5])).2.1
      (by decide)).2⟩

/-- C17 (as stated, refuted). On non-negative values the binary32 mean can
leave the interval from `min` to `max`.  Overflow: after `2^127, 2^127` the
total and the mean are `+inf`, above `max = 2^127`.  Rounding: after three
times 5592409/4194304 the mean is 11184819/8388608, above `max`; after three
times 5592407/4194304 the mean is 11184813/8388608, below `min`. -/
theorem C17_mean_outside_min_max :
    ((ingest32 statRecord32.ctor [Fval.fin (2 ^ 127), Fval.fin (2 ^ 127)]).compute_mean.max =
        Fval.fin (2 ^ 127) ∧
      (ingest32 statRecord32.ctor [Fval.fin (2 ^ 127), Fval.fin (2 ^ 127)]).compute_mean.mean =
        Fval.pinf ∧
      Fval.le Fval.pinf (Fval.fin (2 ^ 127)) = false) ∧
    ((ingest32 statRecord32.ctor [Fval.fin (5592409 / 4194304), Fval.fin (5592409 / 4194304),
        Fval.fin (5592409 / 4194304)]).compute_mean.max = Fval.fin (5592409 / 4194304) ∧
      (ingest32 statRecord32.ctor [Fval.fin (5592409 / 4194304), Fval.fin (5592409 / 4194304),
        Fval.fin (5592409 / 4194304)]).compute_mean.mean = Fval.fin (11184819 / 8388608) ∧
      Fval.le (Fval.fin (11184819 / 8388608)) (Fval.fin (5592409 / 4194304)) = false) ∧
    ((ingest32 statRecord32.ctor [Fval.fin (5592407 / 4194304), Fval.fin (5592407 / 4194304),
        Fval.fin (5592407 / 4194304)]).compute_mean.min = Fval.fin (5592407 / 4194304) ∧
      (ingest32 statRecord32.ctor [Fval.fin (5592407 / 4194304), Fval.fin (5592407 / 4194304),
        Fval.fin (5592407 / 4194304)]).compute_mean.mean = Fval.fin (11184813 / 8388608) ∧
      Fval.le (Fval.fin (5592407 / 4194304)) (Fval.fin (11184813 / 8388608)) = false) := by
  refine ⟨⟨?_, mean32_overflow, rfl⟩, ⟨?_, mean32_above, ?_⟩, ⟨?_, mean32_below, ?_⟩⟩
  · have hlt : Fval.lt (Fval.fin 0) (Fval.fin (2 ^ 127)) = true := by
      simp only [Fval.lt, decide_eq_true_eq]
      positivity
    have hlt2 : Fval.lt (Fval.fin (2 ^ 127)) (Fval.fin (2 ^ 127)) = false := by
      simp only [Fval.lt, decide_eq_false_iff_not]
      exact lt_irrefl _
    have hc : statRecord32.ctor.max = Fval.fin 0 := rfl
    rw [statRecord32.compute_mean_max, ingest32_cons, ingest32_cons, ingest32_nil, statRecord32.process_val32_max,
      statRecord32.process_val32_max, hc, hlt, if_pos rfl, hlt2]
    rfl
  · rw [statRecord32.compute_mean_max]
    simp [ingest32, statRecord32.process_val, statRecord32.ctor, Fval.lt]
  · simp [Fval.le]
    norm_num
  · rw [statRecord32.compute_mean_min]
    simp [ingest32, statRecord32.process_val, statRecord32.ctor, Fval.lt]
  · simp [Fval.le]
    norm_num

/-- C17 (amended). For a non-empty stream of finite non-negative values
ingested into a fresh record (either constructor), `min` is the smallest and
`max` the largest value of the stream, in binary32 as at the exact level
(comparisons do not round); and in exact arithmetic, without rounding or
overflow of `total` and of the division, the mean lies between them after
`compute_mean`. -/
theorem C17_nonneg_min_max_exact_mean (r0 : statRecord) (xs : List ℚ)
    (hr0 : r0 = statRecord.ctor ∨ ∃ qs : Bool, r0 = statRecord.ctor_qs qs)
    (hne : xs ≠ []) (hpos : ∀ x ∈ xs, 0 ≤ x) :
    ∃ lo hi : ℚ, lo ∈ xs ∧ hi ∈ xs ∧ (∀ x ∈ xs, lo ≤ x ∧ x ≤ hi) ∧
      (ingest32 statRecord32.ctor (xs.map Fval.fin)).min = Fval.fin lo ∧
      (ingest32 statRecord32.ctor (xs.map Fval.fin)).max = Fval.fin hi ∧
      (ingest r0 xs).min = lo ∧ (ingest r0 xs).max = hi ∧
      ∃ m : ℚ, (ingest r0 xs).compute_mean.mean = some m ∧ lo ≤ m ∧ m ≤ hi := by
  have hq : ∃ qs : Bool, r0 = statRecord.ctor_qs qs := by
    rcases hr0 with h | h
    · exact ⟨false, h.trans statRecord.ctor_eq_ctor_qs⟩
    · exact h
  obtain ⟨qs, rfl⟩ := hq
  obtain ⟨h1, h2, h3, h4, m, h5, h6, h7⟩ := ingest_fresh_nonneg qs xs hne hpos
  obtain ⟨b1, b2⟩ := ingest32_fin statRecord32.ctor (statRecord.ctor_qs qs) xs rfl rfl
  exact ⟨_, _, h1, h3, fun x hx => ⟨h2 x hx, h4 x hx⟩, b1, b2, rfl, rfl, m, h5, h6, h7⟩

theorem C17_nonneg_min_max_exact_mean_witness :
    (statRecord.ctor = statRecord.ctor ∨ ∃ qs : Bool, statRecord.ctor = statRecord.ctor_qs qs) ∧
    ([2, 0, 7] : List ℚ) ≠ [] ∧ (∀ x ∈ ([2, 0, 7] : List ℚ), 0 ≤ x) ∧
    ∃ lo hi : ℚ, lo ∈ ([2, 0, 7] : List ℚ) ∧ hi ∈ ([2, 0, 7] : List ℚ) ∧
      (∀ x ∈ ([2, 0, 7] : List ℚ), lo ≤ x ∧ x ≤ hi) ∧
      (ingest32 statRecord32.ctor (([2, 0, 7] : List ℚ).map Fval.fin)).min = Fval.fin lo ∧
      (ingest32 statRecord32.ctor (([2, 0, 7] : List ℚ).map Fval.fin)).max = Fval.fin hi ∧
      (ingest statRecord.ctor [2, 0, 7]).min = lo ∧ (ingest statRecord.ctor [2, 0, 7]).max = hi ∧
      ∃ m : ℚ, (ingest statRecord.ctor [2, 0, 7]).compute_mean.mean = some m ∧
        lo ≤ m ∧ m ≤ hi :=
  ⟨Or.inl rfl, by decide, by decide,
    C17_nonneg_min_max_exact_mean statRecord.ctor [2, 0, 7] (Or.inl rfl) (by decide)
      (by decide)⟩

end Stats
